import Mathlib

/-!
Verification of the leaf-daily document-processing pipeline.

The TypeScript edge functions and SQL migrations are shallowly embedded:
JavaScript strings become lists of characters, JavaScript numbers become
Nat, Int or Rat as appropriate (all arithmetic on the modelled paths is
exact), SQL statements become pure functions on an explicit table state,
and each single atomic SQL statement is one step of the queue model.
-/

/-- JavaScript strings are modelled as lists of characters. -/
abbrev JStr := List Char

/-- Literal helper: a Lean string literal as a `JStr`. -/
def jstr (s : String) : JStr := s.toList

/-- The whitespace class used by the JavaScript regexes (ASCII part of `\s`). -/
def isWsChar (c : Char) : Bool :=
  c = ' ' || c = '\t' || c = '\n' || c = '\r' || c = '\x0b' || c = '\x0c'

/-- Decimal digit test (`\d`). -/
def isDigitCh (c : Char) : Bool := '0' ≤ c && c ≤ '9'

/-- Upper-case A–Z test (`[A-Z]`). -/
def isUpperAZ (c : Char) : Bool := 'A' ≤ c && c ≤ 'Z'

/-- Sentence-ending punctuation class (`[.!?]`). -/
def isSentCh (c : Char) : Bool := c = '.' || c = '!' || c = '?'

/-- Case-insensitive Roman-numeral character class (`[IVXLCDM]` under the `i` flag). -/
def isRomanCi (c : Char) : Bool :=
  let l := c.toLower
  l = 'i' || l = 'v' || l = 'x' || l = 'l' || l = 'c' || l = 'd' || l = 'm'

/-- JavaScript `String.prototype.trim`. -/
def jsTrim (s : JStr) : JStr :=
  ((s.dropWhile isWsChar).reverse.dropWhile isWsChar).reverse

/-- JavaScript `String.prototype.toLowerCase` (ASCII). -/
def jsToLower (s : JStr) : JStr := s.map Char.toLower

/-- Does `needle` occur at the head of `hay`? -/
def leadMatch : JStr → JStr → Bool
  | [], _ => true
  | _ :: _, [] => false
  | a :: as, b :: bs => a = b && leadMatch as bs

/-- First index at which `needle` occurs in the remaining hay, offset by `i`. -/
def idxFrom (needle : JStr) : JStr → Nat → Option Nat
  | [], i => if needle.isEmpty then some i else none
  | c :: rest, i =>
    if leadMatch needle (c :: rest) then some i else idxFrom needle rest (i + 1)

/-- JavaScript `hay.indexOf(needle)`: first occurrence or `-1`. -/
def jsIndexOf (hay needle : JStr) : Int :=
  match idxFrom needle hay 0 with
  | some n => (n : Int)
  | none => -1

/-- JavaScript `hay.includes(needle)`. -/
def jsIncludes (hay needle : JStr) : Bool := (idxFrom needle hay 0).isSome

/-- Clamp a JavaScript index to `[0, len]`. -/
def clampIdx (len : Nat) (i : Int) : Nat := (min (max i 0) (len : Int)).toNat

/-- JavaScript `s.substring(a, b)`: clamps both ends and swaps them if needed. -/
def jsSubstring (s : JStr) (a b : Int) : JStr :=
  let x := clampIdx s.length a
  let y := clampIdx s.length b
  ((s.drop (min x y)).take (max x y - min x y))

/-- JavaScript `s.substring(a)` (to the end of the string). -/
def jsSubstringFrom (s : JStr) (a : Int) : JStr := jsSubstring s a (s.length : Int)

/-- Worker for `splitOnRuns`: `inRun` remembers whether the previous character
was a separator, so that a maximal separator run yields exactly one split. -/
def splitRunsGo (p : Char → Bool) : JStr → JStr → Bool → List JStr
  | [], acc, _ => [acc.reverse]
  | c :: rest, acc, inRun =>
    if p c then
      if inRun then splitRunsGo p rest acc true
      else acc.reverse :: splitRunsGo p rest [] true
    else splitRunsGo p rest (c :: acc) false

/-- JavaScript `s.split(/X+/)` for a character class `X`: splits on maximal
non-empty runs of class characters, keeping leading/trailing empty pieces. -/
def splitOnRuns (p : Char → Bool) (s : JStr) : List JStr := splitRunsGo p s [] false

/-- JavaScript `s.split(/\s+/)`. -/
def jsSplitWs (s : JStr) : List JStr := splitOnRuns isWsChar s

/-- JavaScript `s.split(/[.!?]+/)`. -/
def jsSplitSent (s : JStr) : List JStr := splitOnRuns isSentCh s

/-- Worker for `splitEvery`. -/
def splitEveryGo (sep : Char) : JStr → JStr → List JStr
  | [], acc => [acc.reverse]
  | c :: rest, acc =>
    if c = sep then acc.reverse :: splitEveryGo sep rest []
    else splitEveryGo sep rest (c :: acc)

/-- JavaScript `s.split(c)` for a single literal character. -/
def splitEvery (sep : Char) (s : JStr) : List JStr := splitEveryGo sep s []

/-- Worker for `splitMinRun`: `run` holds the pending separator characters in
reverse order; a pending run of length `≥ m` acts as one separator. -/
def splitMinRunGo (sep : Char) (m : Nat) : JStr → JStr → JStr → List JStr
  | [], acc, run =>
    if m ≤ run.length then [acc.reverse, []]
    else [(run ++ acc).reverse]
  | c :: rest, acc, run =>
    if c = sep then splitMinRunGo sep m rest acc (c :: run)
    else if m ≤ run.length then acc.reverse :: splitMinRunGo sep m rest [c] []
    else splitMinRunGo sep m rest (c :: (run ++ acc)) []

/-- JavaScript `s.split(/\n\n\n+/)`-style splitting: maximal runs of at least
`m` copies of `sep` are separators; shorter runs are ordinary text. -/
def splitMinRun (sep : Char) (m : Nat) (s : JStr) : List JStr :=
  splitMinRunGo sep m s [] []

/-- Worker for `replaceRuns`: maximal runs (length `≥ m`) of class characters
are replaced by `rep`; shorter runs are kept verbatim. -/
def replaceRunsGo (p : Char → Bool) (m : Nat) (rep : JStr) : JStr → JStr → JStr
  | [], run => if m ≤ run.length then rep else run.reverse
  | c :: rest, run =>
    if p c then replaceRunsGo p m rep rest (c :: run)
    else
      (if m ≤ run.length then rep else run.reverse) ++ c :: replaceRunsGo p m rep rest []

/-- JavaScript `s.replace(/X{m,}/g, rep)` for a character class `X`. -/
def replaceRuns (p : Char → Bool) (m : Nat) (rep : JStr) (s : JStr) : JStr :=
  replaceRunsGo p m rep s []

/-- Join a list of strings with a single-character separator
(JavaScript `parts.join(sep)`). -/
def joinWith (sep : Char) : List JStr → JStr
  | [] => []
  | [x] => x
  | x :: y :: rest => x ++ sep :: joinWith sep (y :: rest)

/-- Decimal digit character for `n < 10`. -/
def digitCh (n : Nat) : Char := Char.ofNat (48 + n)

/-- Fuel-driven decimal printing worker. -/
def natToJStrGo : Nat → Nat → JStr
  | 0, _ => []
  | fuel + 1, n =>
    if n < 10 then [digitCh n]
    else natToJStrGo fuel (n / 10) ++ [digitCh (n % 10)]

/-- Decimal rendering of a natural number (JavaScript template `${n}`). -/
def natToJStr (n : Nat) : JStr := natToJStrGo (n + 1) n

/-- `Math.ceil(a / b)` for natural `a`, positive natural `b`. -/
def ceilNatDiv (a b : Nat) : Nat := (a + b - 1) / b

/-! ## Enhancement status aggregation (enhance-chapters `updateBookEnhancementStatus`) -/

/-- Chapter enhancement status values. -/
inductive EnhStatus
  | pending
  | processing
  | completed
  | failed
  | skipped
deriving DecidableEq

/-- Number of chapters with the given status (the JS `reduce` count map). -/
def countStatus (x : EnhStatus) (l : List EnhStatus) : Nat :=
  (l.filter (fun s => s = x)).length

/-- The aggregate enhancement status written onto the book, from the
`updateBookEnhancementStatus` functions of enhance-chapters: `completed` if
all chapters completed, else `completed`/`failed` by majority when every
chapter is terminal, else `processing`. -/
def updateBookEnhancementStatus (l : List EnhStatus) : EnhStatus :=
  let totalChapters := l.length
  let completed := countStatus EnhStatus.completed l
  let failed := countStatus EnhStatus.failed l
  if completed = totalChapters then EnhStatus.completed
  else if completed + failed = totalChapters then
    (if failed < completed then EnhStatus.completed else EnhStatus.failed)
  else EnhStatus.processing

/-- The aggregate status as the specification describes it (`completed` if all
completed; `failed` if all terminal and failures outnumber successes;
otherwise `processing`), stated for comparison with the code. -/
def specBookEnhancementStatus (l : List EnhStatus) : EnhStatus :=
  if l.all (fun s => s = EnhStatus.completed) then EnhStatus.completed
  else if l.all (fun s => s = EnhStatus.completed || s = EnhStatus.failed)
      && countStatus EnhStatus.completed l < countStatus EnhStatus.failed l then
    EnhStatus.failed
  else EnhStatus.processing

/-! ## Cache eviction (`cleanup_old_cache`, SQL migrations) -/

/-- A `processing_cache` row, with timestamps in seconds. -/
structure CacheEntry where
  cacheKey : Nat
  createdAt : Int
  hitCount : Nat
deriving DecidableEq

/-- Seconds in a day, for SQL `interval` arithmetic. -/
def daySeconds : Int := 86400

/-- `cleanup_old_cache(p_days_old)` from the 20250801 migration: deletes rows
with `created_at < now() - p_days_old days AND hit_count < 2`; returns the
retained table and the deleted row count. -/
def cleanup_old_cache_param (daysOld : Int) (now : Int) (table : List CacheEntry) :
    List CacheEntry × Nat :=
  let doomed := fun e =>
    decide (e.createdAt < now - daysOld * daySeconds) && decide (e.hitCount < 2)
  (table.filter (fun e => !(doomed e)), (table.filter doomed).length)

/-- The no-argument `cleanup_old_cache()` from the 20250803 cleanup migration:
the 30-day threshold is hardcoded. -/
def cleanup_old_cache (now : Int) (table : List CacheEntry) : List CacheEntry × Nat :=
  let doomed := fun e =>
    decide (e.createdAt < now - 30 * daySeconds) && decide (e.hitCount < 2)
  (table.filter (fun e => !(doomed e)), (table.filter doomed).length)

/-! ## Text extraction (extract-pdf-text) -/

/-- Does some position of the line match `Page \d+ of \d+` case-insensitively? -/
def hasPageOfAt : JStr → Bool
  | [] => false
  | c :: rest =>
    (if leadMatch (jstr ("page ")) (jsToLower (c :: rest)) then
      let afterKw := (c :: rest).drop 5
      let ds := afterKw.takeWhile isDigitCh
      if ds.isEmpty then false
      else
        let mid := afterKw.drop ds.length
        if leadMatch (jstr (" of ")) (jsToLower mid) then
          !(((mid.drop 4).takeWhile isDigitCh).isEmpty)
        else false
    else false)
    || hasPageOfAt rest

/-- `.replace(/^.*Page \d+ of \d+.*$/gim, '')`: since `.` cannot cross
newlines, a whole line is blanked exactly when it contains the pattern. -/
def stripPageOfLines (s : JStr) : JStr :=
  joinWith '\n' ((splitEvery '\n' s).map (fun line =>
    if hasPageOfAt line then [] else line))

/-- Greedy backtracking of a trailing `\s*` before a `$` anchor under the `m`
flag: pick the longest number of trailing whitespace characters (at most the
given run length) after which the text is exhausted or a newline follows. -/
def pickTrailWs (afterDs : JStr) : Nat → Option Nat
  | 0 => if afterDs.isEmpty || afterDs.headD ' ' = '\n' then some 0 else none
  | u + 1 =>
    let rest := afterDs.drop (u + 1)
    if rest.isEmpty || rest.headD ' ' = '\n' then some (u + 1) else pickTrailWs afterDs u

/-- Attempt the `gm`-regex `^\s*\d+\s*$` at a line-start position: greedy
leading `\s*` (which may cross newlines), at least one digit, then the longest
trailing `\s*` that still ends at a line boundary. Returns the remainder after
the matched span. -/
def tryNumLine (s : JStr) : Option JStr :=
  let ws := s.takeWhile isWsChar
  let afterWs := s.drop ws.length
  let ds := afterWs.takeWhile isDigitCh
  if ds.isEmpty then none
  else
    let afterDs := afterWs.drop ds.length
    let trail := afterDs.takeWhile isWsChar
    match pickTrailWs afterDs trail.length with
    | some u => some (afterDs.drop u)
    | none => none

/-- Attempt the `gim`-regex `^\s*Chapter \d+ Page \d+\s*$` at a line start,
in the same style as `tryNumLine`. -/
def tryChapterPageLine (s : JStr) : Option JStr :=
  let ws := s.takeWhile isWsChar
  let afterWs := s.drop ws.length
  if !(leadMatch (jstr ("chapter ")) (jsToLower afterWs)) then none
  else
    let a1 := afterWs.drop 8
    let d1 := a1.takeWhile isDigitCh
    if d1.isEmpty then none
    else
      let a2 := a1.drop d1.length
      if !(leadMatch (jstr (" page ")) (jsToLower a2)) then none
      else
        let a3 := a2.drop 6
        let d2 := a3.takeWhile isDigitCh
        if d2.isEmpty then none
        else
          let afterDs := a3.drop d2.length
          let trail := afterDs.takeWhile isWsChar
          match pickTrailWs afterDs trail.length with
          | some u => some (afterDs.drop u)
          | none => none

/-- Fuel-driven scanner applying a line-anchored matcher at every line start
and deleting each match (`.replace(pat, '')` for the two `^...$`-anchored
patterns above whose `\s*` can cross newlines). -/
def stripAnchoredGo (tm : JStr → Option JStr) : Nat → JStr → Bool → JStr
  | 0, s, _ => s
  | _ + 1, [], _ => []
  | fuel + 1, c :: rest, atStart =>
    if atStart then
      match tm (c :: rest) with
      | some remainder => stripAnchoredGo tm fuel remainder false
      | none => c :: stripAnchoredGo tm fuel rest (c = '\n')
    else c :: stripAnchoredGo tm fuel rest (c = '\n')

/-- `.replace(/^\s*\d+\s*$/gm, '')`. -/
def stripNumLines (s : JStr) : JStr := stripAnchoredGo tryNumLine (s.length + 1) s true

/-- `.replace(/^\s*Chapter \d+ Page \d+\s*$/gim, '')`. -/
def stripChapterPageLines (s : JStr) : JStr :=
  stripAnchoredGo tryChapterPageLine (s.length + 1) s true

/-- `.replace(/\f/g, '\n\n')`. -/
def replaceFormFeeds : JStr → JStr
  | [] => []
  | c :: rest =>
    if c = '\x0c' then '\n' :: '\n' :: replaceFormFeeds rest
    else c :: replaceFormFeeds rest

/-- Horizontal whitespace class (`[ \t]`). -/
def isHorizWs (c : Char) : Bool := c = ' ' || c = '\t'

/-- `cleanupExtractedText` from extract-pdf-text, chained in source order. -/
def cleanupExtractedText (text : JStr) : JStr :=
  let s1 := replaceRuns isWsChar 3 (jstr ("  ")) text
  let s2 := stripNumLines s1
  let s3 := stripPageOfLines s2
  let s4 := stripChapterPageLines s3
  let s5 := replaceFormFeeds s4
  let s6 := replaceRuns (fun c => c = '\n') 4 (jstr ("\n\n\n")) s5
  let s7 := replaceRuns isHorizWs 1 (jstr (" ")) s6
  jsTrim s7

/-- `extractTextWithProgress`, reduced to its text-level decision: raise the
hard `No text could be extracted from PDF` failure when the raw extracted
text is empty or whitespace-only, otherwise return the cleaned text. -/
def extractTextWithProgress (rawText : JStr) : Option JStr :=
  if rawText.isEmpty || (jsTrim rawText).length == 0 then none
  else some (cleanupExtractedText rawText)

/-! ## Chapter store (store-chapters) -/

/-- A chapter as handed to store-chapters (detector output shape). -/
structure SChapter where
  title : JStr
  content : JStr
  wordCount : Nat
  startIndex : Int
  endIndex : Int
  detectionMethod : JStr
  confidence : ℚ
  boundaryStrength : Option ℚ

/-- One step of `validateChapters`: skip on missing title/content, short
content, or low recomputed word count; otherwise sanitize the title and clamp
the numeric fields exactly as the JS does (`|| 0` treats a zero end index or
confidence as absent). -/
def validateOneChapter (ch : SChapter) : Option SChapter :=
  if ch.title.isEmpty || ch.content.isEmpty then none
  else if ch.content.length < 100 then none
  else
    let actualWordCount := (jsSplitWs ch.content).length
    if actualWordCount < 50 then none
    else
      let sanitizedTitle :=
        if 200 < ch.title.length then ch.title.take 197 ++ jstr ("...") else ch.title
      some { ch with
        title := sanitizedTitle
        wordCount := actualWordCount
        startIndex := max 0 ch.startIndex
        endIndex := max ch.startIndex
          (if ch.endIndex = 0 then (ch.content.length : Int) else ch.endIndex)
        confidence := max 0 (min 1 (if ch.confidence = 0 then 1/2 else ch.confidence)) }

/-- `validateChapters` from store-chapters. -/
def validateChapters (chapters : List SChapter) : List SChapter :=
  chapters.filterMap validateOneChapter

/-- A row prepared for insertion into the `chapters` table. -/
structure ChapterForDB where
  book_id : Nat
  chapter_number : Nat
  part_number : Nat
  title : JStr
  content : JStr
  word_count : Nat
  reading_time_minutes : Nat
  highlight_quotes : List JStr
  enhancement_status : EnhStatus

/-- Quoted-span scanner for `extractPotentialQuotes`: the pieces between `"`
characters, paired left to right, where an inner piece of 20–200 characters is
a match (`/"([^"]{20,200})"/g`). -/
def quotedSpans : List JStr → List JStr
  | [] => []
  | [_] => []
  | _ :: inner :: rest =>
    if 20 ≤ inner.length && inner.length ≤ 200 then inner :: quotedSpans rest
    else quotedSpans (inner :: rest)

/-- The marker phrases scanned for by `extractPotentialQuotes`. -/
def importantPhrases : List JStr :=
  [jstr ("The key is"), jstr ("It is important"), jstr ("Remember that"),
   jstr ("The main point"), jstr ("In conclusion"), jstr ("To summarize"),
   jstr ("Most importantly"), jstr ("This means")]

/-- Sentence pass of `extractPotentialQuotes`: push a trimmed sentence of
length 51–299 containing a marker phrase (case-insensitively), stopping as
soon as five quotes are collected. -/
def quoteSentenceScan : List JStr → List JStr → List JStr
  | [], acc => acc
  | s :: rest, acc =>
    let trimmed := jsTrim s
    let acc2 :=
      if 50 < trimmed.length && trimmed.length < 300
          && importantPhrases.any (fun p => jsIncludes (jsToLower trimmed) (jsToLower p))
      then acc ++ [trimmed] else acc
    if 5 ≤ acc2.length then acc2 else quoteSentenceScan rest acc2

/-- `extractPotentialQuotes` from store-chapters. -/
def extractPotentialQuotes (content : JStr) : List JStr :=
  let quoted := (quotedSpans (splitEvery '"' content)).take 3
  (quoteSentenceScan (jsSplitSent content) quoted).take 5

/-- The indexed row-building loop of `prepareChaptersForDB` (`i` is the JS
loop index). -/
def prepareChaptersForDBGo (bookId : Nat) : Nat → List SChapter → List ChapterForDB
  | _, [] => []
  | i, ch :: rest =>
    { book_id := bookId
      chapter_number := i + 1
      part_number := 1
      title := ch.title
      content := ch.content
      word_count := ch.wordCount
      reading_time_minutes := ceilNatDiv ch.wordCount 200
      highlight_quotes := extractPotentialQuotes ch.content
      enhancement_status := EnhStatus.pending }
      :: prepareChaptersForDBGo bookId (i + 1) rest

/-- `prepareChaptersForDB`: reading time is `Math.ceil(wordCount / 200)`,
chapter numbers are positional, part number is 1. -/
def prepareChaptersForDB (bookId : Nat) (chapters : List SChapter) : List ChapterForDB :=
  prepareChaptersForDBGo bookId 0 chapters

/-- Book-level aggregates from `calculateBookStats`. -/
structure BookStats where
  totalWordCount : Nat
  totalReadingTime : Nat
  chapterCount : Nat

/-- `calculateBookStats` from store-chapters (the average field is omitted as
it is not persisted). -/
def calculateBookStats (chapters : List SChapter) : BookStats :=
  { totalWordCount := (chapters.map SChapter.wordCount).sum
    totalReadingTime := (chapters.map (fun ch => ceilNatDiv ch.wordCount 200)).sum
    chapterCount := chapters.length }

/-- The book columns touched by `updateBookCompletionStatus`. -/
structure BookRow where
  processing_status : JStr
  total_word_count : Nat
  estimated_total_reading_time : Nat
  enhancement_status : EnhStatus

/-- `updateBookCompletionStatus`: writes the aggregates onto the book row. -/
def updateBookCompletionStatus (book : BookRow) (stats : BookStats) : BookRow :=
  { book with
    processing_status := jstr ("completed")
    total_word_count := stats.totalWordCount
    estimated_total_reading_time := stats.totalReadingTime
    enhancement_status := EnhStatus.pending }

/-! ## Job queue (`get_next_job` / `complete_job`, 20250803 cleanup migration) -/

/-- Job status values of the `processing_jobs` table. -/
inductive JobStatus
  | pending
  | running
  | completed
  | failed
  | retrying
deriving DecidableEq

/-- A `processing_jobs` row (the columns the queue functions read or write). -/
structure PJob where
  id : Nat
  book_id : Nat
  job_type : JStr
  priority : Int
  created_at : Int
  retry_count : Nat
  max_retries : Nat
  depends_on_job : Option Nat
  status : JobStatus
deriving DecidableEq

/-- The `LEFT JOIN` dependency condition of `get_next_job`:
`j.depends_on_job IS NULL OR dep.status = 'completed'`. -/
def depSatisfied (db : List PJob) (j : PJob) : Bool :=
  match j.depends_on_job with
  | none => true
  | some d =>
    match db.find? (fun k => k.id = d) with
    | some dep => dep.status = JobStatus.completed
    | none => false

/-- The full `WHERE` clause of `get_next_job`'s inner `SELECT`: pending,
dependency satisfied, and retries not exhausted. -/
def claimable (db : List PJob) (j : PJob) : Bool :=
  j.status = JobStatus.pending && depSatisfied db j && j.retry_count < j.max_retries

/-- `ORDER BY priority ASC, created_at ASC`: strict lexicographic order. -/
def jobKeyLt (a b : PJob) : Bool :=
  a.priority < b.priority || (a.priority = b.priority && a.created_at < b.created_at)

/-- The row picked by `get_next_job`'s inner
`SELECT ... ORDER BY priority, created_at LIMIT 1`: the first minimal
claimable row. -/
def selectNextJob (db : List PJob) : Option PJob :=
  (db.filter (claimable db)).foldl
    (fun acc j =>
      match acc with
      | none => some j
      | some k => if jobKeyLt j k then some j else some k) none

/-- The `UPDATE ... SET status = 'running'` of `get_next_job`, applied to the
selected row id. -/
def markRunning (db : List PJob) (i : Nat) : List PJob :=
  db.map (fun k => if k.id = i then { k with status := JobStatus.running } else k)

/-- `get_next_job()`: one atomic conditional update (the SQL statement runs as
a single atomic `UPDATE ... WHERE id = (SELECT ... FOR UPDATE SKIP LOCKED)`),
returning the claimed row (if any) and the updated table. -/
def get_next_job (db : List PJob) : Option PJob × List PJob :=
  match selectNextJob db with
  | none => (none, db)
  | some j => (some { j with status := JobStatus.running }, markRunning db j.id)

/-- `complete_job(p_job_id, _, p_success)`: on success mark completed; on
failure return to pending while `retry_count < max_retries` (checked before
the increment), else mark failed. -/
def complete_job (db : List PJob) (jobId : Nat) (success : Bool) : List PJob :=
  db.map (fun k =>
    if k.id = jobId then
      if success then { k with status := JobStatus.completed }
      else
        { k with
          status := if k.retry_count < k.max_retries then JobStatus.pending
                    else JobStatus.failed
          retry_count := k.retry_count + 1 }
    else k)

/-- A serialized trace of `n` atomic claim steps (any interleaving of
concurrent callers serializes into such a trace, each `get_next_job` call
being one atomic statement): returns the final table and each call's result. -/
def runClaims : List PJob → Nat → List PJob × List (Option PJob)
  | db, 0 => (db, [])
  | db, n + 1 =>
    let step := get_next_job db
    let rest := runClaims step.2 n
    (rest.1, step.1 :: rest.2)

/-- Ids of the jobs claimable in a table state. -/
def claimableIds (db : List PJob) : List Nat :=
  (db.filter (claimable db)).map PJob.id

/-- Ids of the jobs handed out along a trace of `n` claim steps. -/
def claimedIds (db : List PJob) (n : Nat) : List Nat :=
  ((runClaims db n).2.filterMap id).map PJob.id

/-! ## Chapter boundary detector (detect-chapters) -/

/-- The `Chapter` interface of detect-chapters. -/
structure Chapter where
  title : JStr
  content : JStr
  wordCount : Nat
  startIndex : Int
  endIndex : Int
  detectionMethod : JStr
  confidence : ℚ
  boundaryStrength : Option ℚ

/-- A detection strategy result. -/
structure DetectionResult where
  chapters : List Chapter
  method : JStr
  confidence : ℚ

/-- The book fields the detector reads. -/
structure Book where
  title : JStr
  genre : Option JStr

/-- Stable insertion of `x` after all list entries whose key is `≤` its own
(the behaviour of JavaScript sort with comparator `(a, b) => key a - key b`,
which is stable). -/
def insertByKey (key : α → Int) (x : α) : List α → List α
  | [] => [x]
  | y :: ys => if key y ≤ key x then y :: insertByKey key x ys else x :: y :: ys

/-- Stable sort by an integer key. -/
def stableSortByKey (key : α → Int) (l : List α) : List α :=
  l.foldl (fun acc x => insertByKey key x acc) []

/-- One line match of a pattern tier. -/
structure TierMatch where
  index : Int
  title : JStr
  lineNum : Nat
  confidence : ℚ

/-- The four pattern tiers of `detectPatternBasedChapters`, in source order. -/
inductive TierId
  | chapterTier
  | partTier
  | numberedTier
  | capsTier
deriving DecidableEq

/-- The per-tier `confidence` constants (0.95 / 0.90 / 0.75 / 0.60). -/
def tierConfidence : TierId → ℚ
  | TierId.chapterTier => 0.95
  | TierId.partTier => 0.90
  | TierId.numberedTier => 0.75
  | TierId.capsTier => 0.60

/-- The optional tail `(?:\s*[:\.\-]\s*(.*))?$` of the chapter/part regexes:
`none` means the whole match fails at this position, `some g2` gives the
second capture group (absent when the optional group did not participate). -/
def chapTailGroup (rest : JStr) : Option (Option JStr) :=
  if rest.isEmpty then some none
  else
    let r := rest.dropWhile isWsChar
    match r.head? with
    | some c =>
      if c = ':' || c = '.' || c = '-' then some (some ((r.drop 1).dropWhile isWsChar))
      else none
    | none => none

/-- The regex alternation `One|Two|...` of number words: try each word
case-insensitively in order, keeping the first that lets the tail match;
returns the capture (in the original case) and the second group. -/
def wordAltChap (rest : JStr) : List JStr → Option (JStr × Option JStr)
  | [] => none
  | w :: more =>
    if leadMatch (jsToLower w) (jsToLower rest) then
      match chapTailGroup (rest.drop w.length) with
      | some g2 => some (rest.take w.length, g2)
      | none => wordAltChap rest more
    else wordAltChap rest more

/-- The number-word alternation of the chapter tier (`One` … `Twenty`). -/
def numberWordsTwenty : List JStr :=
  [jstr ("One"), jstr ("Two"), jstr ("Three"), jstr ("Four"), jstr ("Five"),
   jstr ("Six"), jstr ("Seven"), jstr ("Eight"), jstr ("Nine"), jstr ("Ten"),
   jstr ("Eleven"), jstr ("Twelve"), jstr ("Thirteen"), jstr ("Fourteen"),
   jstr ("Fifteen"), jstr ("Sixteen"), jstr ("Seventeen"), jstr ("Eighteen"),
   jstr ("Nineteen"), jstr ("Twenty")]

/-- The number-word alternation of the part tier (`One` … `Five`). -/
def numberWordsFive : List JStr :=
  [jstr ("One"), jstr ("Two"), jstr ("Three"), jstr ("Four"), jstr ("Five")]

/-- Shared matcher for the chapter/part tiers: case-insensitive keyword, at
least one whitespace character, then `\d+`, `[IVXLCDM]+` or a number word
(the alternation backtracks only through the word list: a shorter digit or
Roman run always leaves a class character before the tail, which can never
match). Returns the two capture groups. -/
def keywordNumberExec (keyword : JStr) (words : List JStr) (line : JStr) :
    Option (Option JStr × Option JStr) :=
  if !(leadMatch keyword (jsToLower line)) then none
  else
    let rest := line.drop keyword.length
    let wsRun := rest.takeWhile isWsChar
    if wsRun.isEmpty then none
    else
      let rest1 := rest.drop wsRun.length
      let ds := rest1.takeWhile isDigitCh
      if !ds.isEmpty then
        match chapTailGroup (rest1.drop ds.length) with
        | some g2 => some (some ds, g2)
        | none => none
      else
        let rs := rest1.takeWhile isRomanCi
        if !rs.isEmpty then
          match chapTailGroup (rest1.drop rs.length) with
          | some g2 => some (some rs, g2)
          | none => none
        else
          match wordAltChap rest1 words with
          | some (g1, g2) => some (some g1, g2)
          | none => none

/-- Greedy backtracking of `\s+` before `(.{10,80})$`: choose the largest
whitespace prefix length in `[1, wl]` whose remainder has length 10–80. -/
def pickNumberedWs (rest1 : JStr) : Nat → Option Nat
  | 0 => none
  | j + 1 =>
    let rl := rest1.length - (j + 1)
    if 10 ≤ rl && rl ≤ 80 then some (j + 1) else pickNumberedWs rest1 j

/-- The numbered-section tier `^(\d+)[\.\)]\s+(.{10,80})$`. -/
def numberedExec (line : JStr) : Option (Option JStr × Option JStr) :=
  let ds := line.takeWhile isDigitCh
  if ds.isEmpty then none
  else
    let rest := line.drop ds.length
    match rest.head? with
    | some c =>
      if c = '.' || c = ')' then
        let rest1 := rest.drop 1
        match pickNumberedWs rest1 (rest1.takeWhile isWsChar).length with
        | some j => some (some ds, some (rest1.drop j))
        | none => none
      else none
    | none => none

/-- The all-caps tier `^[A-Z\s]{3,50}$` (no capture groups). -/
def capsExec (line : JStr) : Option (Option JStr × Option JStr) :=
  if 3 ≤ line.length && line.length ≤ 50
      && line.all (fun c => isUpperAZ c || isWsChar c) then
    some (none, none)
  else none

/-- Dispatch a line to its tier regex. -/
def tierExec : TierId → JStr → Option (Option JStr × Option JStr)
  | TierId.chapterTier => keywordNumberExec (jstr ("chapter")) numberWordsTwenty
  | TierId.partTier => keywordNumberExec (jstr ("part")) numberWordsFive
  | TierId.numberedTier => numberedExec
  | TierId.capsTier => capsExec

/-- The title template
`match[2] ? Chapter m1: m2 : (match[1] ? Chapter m1 : line)`; an empty
second group is falsy in JavaScript. -/
def mkMatchTitle (line : JStr) : Option JStr × Option JStr → JStr
  | (some g1, some g2) =>
    if g2.isEmpty then jstr ("Chapter ") ++ g1
    else jstr ("Chapter ") ++ g1 ++ jstr (": ") ++ g2
  | (some g1, none) => jstr ("Chapter ") ++ g1
  | (none, _) => line

/-- All line matches of one tier over the text: lines are trimmed, length-3-
to-150 filtered, matched, and located with `text.indexOf(line)`. -/
def matchesForTier (text : JStr) (t : TierId) : List TierMatch :=
  let lines := splitEvery '\n' text
  ((List.range lines.length).zip lines).filterMap (fun iv =>
    let line := jsTrim iv.2
    if line.length < 3 || 150 < line.length then none
    else
      match tierExec t line with
      | some g =>
        let textIndex := jsIndexOf text line
        if textIndex = -1 then none
        else some { index := textIndex, title := jsTrim (mkMatchTitle line g),
                    lineNum := iv.1, confidence := tierConfidence t }
      | none => none)

/-- The tier list in source order. -/
def chapterPatternTiers : List TierId :=
  [TierId.chapterTier, TierId.partTier, TierId.numberedTier, TierId.capsTier]

/-- The best-tier fold of `detectPatternBasedChapters`: keep a tier's matches
when it matched at least 2 lines with confidence above the running best. -/
def bestTierMatches (text : JStr) : List TierMatch × ℚ :=
  chapterPatternTiers.foldl (fun acc t =>
    let ms := matchesForTier text t
    if 2 ≤ ms.length then
      if acc.2 < tierConfidence t then (ms, tierConfidence t) else acc
    else acc) ([], 0)

/-- `calculateBoundaryStrength`: base 0.5 plus context bonuses, capped at 1. -/
def calculateBoundaryStrength (lines : List JStr) (lineNum : Nat) : ℚ :=
  let prevLine := if 0 < lineNum then jsTrim (lines.getD (lineNum - 1) []) else []
  let nextLine :=
    if lineNum + 1 < lines.length then jsTrim (lines.getD (lineNum + 1) []) else []
  let cur := lines.getD lineNum []
  let b1 : ℚ := if prevLine.isEmpty && nextLine.isEmpty then 0.3 else 0
  let b2 : ℚ :=
    if !cur.isEmpty && cur.all (fun c => isUpperAZ c || isWsChar c) then 0.2 else 0
  let ds := cur.takeWhile isDigitCh
  let b3 : ℚ :=
    if !ds.isEmpty &&
        (match (cur.drop ds.length).head? with
         | some c => c = '.' || c = ')'
         | none => false) then 0.2 else 0
  min (0.5 + b1 + b2 + b3) 1

/-- Chapter construction from the sorted best matches: each chapter runs from
its marker to the next marker (or the end of the text) and is kept only when
its trimmed content exceeds 500 characters. -/
def buildPatternChapters (text : JStr) (lines : List JStr) : List TierMatch → List Chapter
  | [] => []
  | m :: rest =>
    let startIndex := m.index
    let endIndex := match rest.head? with
      | some nm => nm.index
      | none => (text.length : Int)
    let content := jsTrim (jsSubstring text startIndex endIndex)
    let tail := buildPatternChapters text lines rest
    if 500 < content.length then
      { title := m.title, content := content,
        wordCount := (jsSplitWs content).length,
        startIndex := startIndex, endIndex := endIndex,
        detectionMethod := jstr ("pattern_based"), confidence := m.confidence,
        boundaryStrength := some (calculateBoundaryStrength lines m.lineNum) } :: tail
    else tail

/-- `detectPatternBasedChapters` from detect-chapters. -/
def detectPatternBasedChapters (text : JStr) : DetectionResult :=
  let lines := splitEvery '\n' text
  let best := bestTierMatches text
  let sorted := stableSortByKey (fun m : TierMatch => m.index) best.1
  { chapters := buildPatternChapters text lines sorted,
    method := jstr ("pattern_based"), confidence := best.2 }

/-- A structural or semantic break point. -/
structure BreakPoint where
  index : Int
  strength : ℚ

/-- `calculateStructuralBreakStrength`: base 0.3, +0.4 when both sides have
more than 100 words, +0.3 when the left side ends with sentence punctuation
and the right side starts capitalized, capped at 1. -/
def calculateStructuralBreakStrength (beforeText afterText : JStr) : ℚ :=
  let beforeWords := (jsSplitWs (jsTrim beforeText)).length
  let afterWords := (jsSplitWs (jsTrim afterText)).length
  let b1 : ℚ := if 100 < beforeWords && 100 < afterWords then 0.4 else 0
  let beforeEnds :=
    match (jsTrim beforeText).reverse.head? with
    | some c => isSentCh c
    | none => false
  let afterStarts :=
    match (jsTrim afterText).head? with
    | some c => isUpperAZ c
    | none => false
  let b2 : ℚ := if beforeEnds && afterStarts then 0.3 else 0
  min (0.3 + b1 + b2) 1

/-- The break-collection loop of `detectStructuralChapters`: walk consecutive
text parts, keeping a break (at the running character index, which counts
each separator as three characters) when its strength exceeds 0.5. -/
def structuralBreaksGo : List JStr → JStr → Int → List BreakPoint
  | [], _, _ => []
  | part :: rest, prev, currentIndex =>
    let strength := calculateStructuralBreakStrength prev part
    let here :=
      if strength > 0.5 then [BreakPoint.mk currentIndex strength] else []
    here ++ structuralBreaksGo rest part (currentIndex + part.length + 3)

/-- All structural breaks of a text (parts split on `/\n\n\n+/`; the first
part yields no break). -/
def structuralBreaks (text : JStr) : List BreakPoint :=
  match splitMinRun '\n' 3 text with
  | [] => []
  | first :: rest => structuralBreaksGo rest first ((first.length : Int) + 3)

/-- `generateStructuralTitle`: the first non-blank line when its length is
11–79, else `Chapter n`. -/
def generateStructuralTitle (content : JStr) (chapterNum : Nat) : JStr :=
  let firstLine :=
    match (splitEvery '\n' content).find? (fun l => !(jsTrim l).isEmpty) with
    | some l => jsTrim l
    | none => []
  if 10 < firstLine.length && firstLine.length < 80 then firstLine
  else jstr ("Chapter ") ++ natToJStr chapterNum

/-- Chapter construction from structural breaks: the first chapter starts at
offset 0, each runs to the next break (or the end), and only trimmed contents
longer than 1000 characters are kept. -/
def buildStructuralChapters (text : JStr) : List BreakPoint → Nat → List Chapter
  | [], _ => []
  | bp :: rest, i =>
    let startIndex : Int := if i = 0 then 0 else bp.index
    let endIndex : Int := match rest.head? with
      | some nb => nb.index
      | none => (text.length : Int)
    let content := jsTrim (jsSubstring text startIndex endIndex)
    let tail := buildStructuralChapters text rest (i + 1)
    if 1000 < content.length then
      { title := generateStructuralTitle content (i + 1), content := content,
        wordCount := (jsSplitWs content).length,
        startIndex := startIndex, endIndex := endIndex,
        detectionMethod := jstr ("structural"), confidence := bp.strength,
        boundaryStrength := some bp.strength } :: tail
    else tail

/-- Mean of the chapter confidences, with the given default when empty. -/
def avgChapterConfidence (chapters : List Chapter) (dflt : ℚ) : ℚ :=
  if 0 < chapters.length then
    (chapters.map Chapter.confidence).sum / (chapters.length : ℚ)
  else dflt

/-- `detectStructuralChapters` from detect-chapters (the unused
`structuralIndicators` diagnostic object has no effect and is omitted). -/
def detectStructuralChapters (text : JStr) : DetectionResult :=
  let sorted := stableSortByKey (fun b : BreakPoint => b.index) (structuralBreaks text)
  let chapters := buildStructuralChapters text sorted 0
  { chapters := chapters, method := jstr ("structural"),
    confidence := avgChapterConfidence chapters 0.4 }

/-- The topic-shift markers of `calculateSemanticShift`. -/
def topicMarkers : List JStr :=
  [jstr ("meanwhile"), jstr ("later"), jstr ("the next"), jstr ("suddenly"),
   jstr ("then"), jstr ("now"), jstr ("after")]

/-- The time markers of `calculateSemanticShift`. -/
def timeMarkers : List JStr :=
  [jstr ("morning"), jstr ("evening"), jstr ("day"), jstr ("night"),
   jstr ("week"), jstr ("month"), jstr ("year")]

/-- The place markers of `calculateSemanticShift`. -/
def placeMarkers : List JStr :=
  [jstr ("at"), jstr ("in"), jstr ("outside"), jstr ("inside"),
   jstr ("nearby"), jstr ("across")]

/-- `calculateSemanticShift`: base 0.3 plus 0.2 / 0.15 / 0.1 per contained
marker (only the middle sentence is inspected), capped at 1. -/
def calculateSemanticShift (_prev current _next : JStr) : ℚ :=
  let currentLower := jsToLower current
  let t := (topicMarkers.filter (fun m => jsIncludes currentLower m)).length
  let ti := (timeMarkers.filter (fun m => jsIncludes currentLower m)).length
  let p := (placeMarkers.filter (fun m => jsIncludes currentLower m)).length
  min (0.3 + (t : ℚ) * 0.2 + (ti : ℚ) * 0.15 + (p : ℚ) * 0.1) 1

/-- The break-collection loop of `detectSemanticChapters`: for every interior
sentence, a shift above 0.6 contributes a break at the first occurrence of the
trimmed sentence followed by a period. -/
def semanticBreaksGo (text : JStr) : List (JStr × JStr × JStr) → List BreakPoint
  | [] => []
  | (prev, cur, next) :: rest =>
    let shift := calculateSemanticShift (jsTrim prev) (jsTrim cur) (jsTrim next)
    let here :=
      if shift > 0.6 then
        let sentenceText := jsTrim cur ++ ['.']
        let index := jsIndexOf text sentenceText
        if index = -1 then [] else [BreakPoint.mk index shift]
      else []
    here ++ semanticBreaksGo text rest

/-- Consecutive sentence triples (`sentences[i-1], sentences[i],
sentences[i+1]` for interior `i`). -/
def sentenceTriples (sentences : List JStr) : List (JStr × JStr × JStr) :=
  (sentences.zip ((sentences.drop 1).zip (sentences.drop 2))).map
    (fun t => (t.1, t.2.1, t.2.2))

/-- All semantic breaks: sentences are the `[.!?]+` splits with trimmed length
over 20. -/
def semanticBreaks (text : JStr) : List BreakPoint :=
  let sentences := (jsSplitSent text).filter (fun s => 20 < (jsTrim s).length)
  semanticBreaksGo text (sentenceTriples sentences)

/-- `generateSemanticTitle`: first sentence of length over 10 (trimmed) and
under 80, else a numbered fallback. -/
def generateSemanticTitle (content bookTitle : JStr) (chapterNum : Nat) : JStr :=
  let sentences := (jsSplitSent content).filter (fun s => 10 < (jsTrim s).length)
  match sentences.head? with
  | some s =>
    let f := jsTrim s
    if f.length < 80 then bookTitle ++ jstr (" - ") ++ f ++ jstr ("...")
    else bookTitle ++ jstr (" - Chapter ") ++ natToJStr chapterNum
  | none => bookTitle ++ jstr (" - Chapter ") ++ natToJStr chapterNum

/-- Accumulator of the semantic chapter-building fold. -/
structure SemanticAcc where
  chapterStart : Int
  chapterNumber : Nat
  currentWords : Nat
  chapters : List Chapter

/-- The chapter-building fold of `detectSemanticChapters` over the break
points: accumulate the word count since the current chapter start and cut a
chapter at a break when the accumulated words reach the target envelope
(minimum 1200 and, either 2500 reached or a strong break; or hard cap 4000),
provided the trimmed content exceeds 500 characters. -/
def semanticStep (text bookTitle : JStr) (acc : SemanticAcc) (bp : BreakPoint) :
    SemanticAcc :=
  let segmentText := jsSubstring text acc.chapterStart bp.index
  let segmentWords := (jsSplitWs segmentText).length
  let currentWords := acc.currentWords + segmentWords
  let shouldBreak :=
    (1200 ≤ currentWords && (2500 ≤ currentWords || bp.strength > 0.8))
    || 4000 ≤ currentWords
  if shouldBreak then
    let content := jsTrim (jsSubstring text acc.chapterStart bp.index)
    if 500 < content.length then
      { chapterStart := bp.index
        chapterNumber := acc.chapterNumber + 1
        currentWords := 0
        chapters := acc.chapters ++
          [{ title := generateSemanticTitle content bookTitle acc.chapterNumber,
             content := content, wordCount := currentWords,
             startIndex := acc.chapterStart, endIndex := bp.index,
             detectionMethod := jstr ("semantic"), confidence := bp.strength,
             boundaryStrength := some bp.strength }] }
    else { acc with currentWords := currentWords }
  else { acc with currentWords := currentWords }

/-- `detectSemanticChapters` from detect-chapters. -/
def detectSemanticChapters (text bookTitle : JStr) : DetectionResult :=
  let acc0 : SemanticAcc := { chapterStart := 0, chapterNumber := 1,
                              currentWords := 0, chapters := [] }
  let acc := (semanticBreaks text).foldl (semanticStep text bookTitle) acc0
  let chapters :=
    if acc.chapterStart < (text.length : Int) - 500 then
      let content := jsTrim (jsSubstringFrom text acc.chapterStart)
      let wordCount := (jsSplitWs content).length
      if 300 < wordCount then
        acc.chapters ++
          [{ title := generateSemanticTitle content bookTitle acc.chapterNumber,
             content := content, wordCount := wordCount,
             startIndex := acc.chapterStart, endIndex := (text.length : Int),
             detectionMethod := jstr ("semantic"), confidence := 0.7,
             boundaryStrength := some 0.7 }]
      else acc.chapters
    else acc.chapters
  { chapters := chapters, method := jstr ("semantic"),
    confidence := avgChapterConfidence chapters 0.6 }

/-- The adaptive strategy classes. -/
inductive AdaptStrategy
  | short_form
  | medium_form
  | long_form
  | academic
  | narrative
deriving DecidableEq

/-- The per-strategy chapter-size envelope of `applyAdaptiveStrategy`. -/
def adaptConfig : AdaptStrategy → Nat × Nat × Nat
  | AdaptStrategy.short_form => (1500, 800, 2500)
  | AdaptStrategy.medium_form => (2500, 1500, 4000)
  | AdaptStrategy.long_form => (3500, 2000, 6000)
  | AdaptStrategy.academic => (4000, 2500, 8000)
  | AdaptStrategy.narrative => (3000, 1800, 5000)

/-- The strategy name string (`adaptive_${strategy}` uses these). -/
def adaptName : AdaptStrategy → JStr
  | AdaptStrategy.short_form => jstr ("short_form")
  | AdaptStrategy.medium_form => jstr ("medium_form")
  | AdaptStrategy.long_form => jstr ("long_form")
  | AdaptStrategy.academic => jstr ("academic")
  | AdaptStrategy.narrative => jstr ("narrative")

/-- The document classification of `detectAdaptiveChapters`. -/
def classifyAdaptive (text : JStr) (book : Book) : AdaptStrategy :=
  let wordCount := (jsSplitWs text).length
  if wordCount < 20000 then AdaptStrategy.short_form
  else if wordCount < 80000 then AdaptStrategy.medium_form
  else if wordCount < 200000 then AdaptStrategy.long_form
  else if (match book.genre with
           | some g => jsIncludes g (jstr ("academic"))
           | none => false)
      || jsIncludes text (jstr ("bibliography"))
      || jsIncludes text (jstr ("references")) then AdaptStrategy.academic
  else AdaptStrategy.narrative

/-- The chunking loop of `applyAdaptiveStrategy` (fuel-driven: each step
advances by at least `minWords ≥ 800`, so `words.length` steps suffice).
Indices are word offsets, as in the source. -/
def adaptiveGo (words : List JStr) (cfg : Nat × Nat × Nat) (bookTitle mname : JStr) :
    Nat → Nat → Nat → List Chapter
  | 0, _, _ => []
  | fuel + 1, chapterStart, chapterNum =>
    if chapterStart < words.length then
      let remainingWords := words.length - chapterStart
      let chapterSize := min (max cfg.2.1 (min cfg.1 remainingWords)) cfg.2.2
      let chapterWords := (words.drop chapterStart).take chapterSize
      let content := joinWith ' ' chapterWords
      let tail := adaptiveGo words cfg bookTitle mname fuel
        (chapterStart + chapterSize) (chapterNum + 1)
      if 100 < (jsTrim content).length then
        { title := bookTitle ++ jstr (" - Part ") ++ natToJStr chapterNum,
          content := content, wordCount := chapterWords.length,
          startIndex := (chapterStart : Int),
          endIndex := (chapterStart : Int) + (chapterSize : Int),
          detectionMethod := mname, confidence := 0.8,
          boundaryStrength := none } :: tail
      else tail
    else []

/-- `applyAdaptiveStrategy` from detect-chapters. -/
def applyAdaptiveStrategy (text : JStr) (strategy : AdaptStrategy) (bookTitle : JStr) :
    List Chapter :=
  let words := jsSplitWs text
  adaptiveGo words (adaptConfig strategy) bookTitle
    (jstr ("adaptive_") ++ adaptName strategy) (words.length + 1) 0 1

/-- `detectAdaptiveChapters` from detect-chapters. -/
def detectAdaptiveChapters (text : JStr) (book : Book) : DetectionResult :=
  let strategy := classifyAdaptive text book
  { chapters := applyAdaptiveStrategy text strategy book.title,
    method := jstr ("adaptive_") ++ adaptName strategy, confidence := 0.8 }

/-- The chunking loop of `createOptimizedChunks` (step 2000 words; fuel as for
`adaptiveGo`). -/
def chunksGo (words : List JStr) (bookTitle : JStr) : Nat → Nat → List Chapter
  | 0, _ => []
  | fuel + 1, i =>
    if i < words.length then
      let chunkWords := (words.drop i).take 2000
      let content := joinWith ' ' chunkWords
      let tail := chunksGo words bookTitle fuel (i + 2000)
      if 100 < (jsTrim content).length then
        { title := bookTitle ++ jstr (" - Part ") ++ natToJStr (i / 2000 + 1),
          content := content, wordCount := chunkWords.length,
          startIndex := (i : Int), endIndex := (i : Int) + (chunkWords.length : Int),
          detectionMethod := jstr ("optimized_chunking"), confidence := 0.4,
          boundaryStrength := none } :: tail
      else tail
    else []

/-- `createOptimizedChunks`, the uniform fallback chunker (~2000-word chunks,
word-offset indices). -/
def createOptimizedChunks (text bookTitle : JStr) : List Chapter :=
  let words := jsSplitWs text
  chunksGo words bookTitle (words.length + 1) 0

/-- `runParallelDetection`: the four strategies run (all are total here, so
every promise fulfills), results with at least one chapter are kept, and on
an empty tally the fallback chunker's result object is appended. -/
def runParallelDetection (text : JStr) (book : Book) : List DetectionResult :=
  let results := [detectPatternBasedChapters text,
                  detectStructuralChapters text,
                  detectSemanticChapters text book.title,
                  detectAdaptiveChapters text book]
  let successfulResults := results.filter (fun r => 0 < r.chapters.length)
  if successfulResults.isEmpty then
    [{ chapters := createOptimizedChunks text book.title,
       method := jstr ("fallback_chunking"), confidence := 0.3 }]
  else successfulResults

/-- The chapter-count term of the selection score: +0.3 for 3–50 chapters,
-0.2 above 50. -/
def chapterCountScore (n : Nat) : ℚ :=
  if 3 ≤ n && n ≤ 50 then 0.3 else if 50 < n then -0.2 else 0

/-- The size-consistency term: `max 0 (1 - variance / mean²)` of the chapter
word counts. -/
def sizeConsistency (chapters : List Chapter) : ℚ :=
  let wordCounts := chapters.map (fun ch => (ch.wordCount : ℚ))
  let avgWords := wordCounts.sum / (wordCounts.length : ℚ)
  let variance := (wordCounts.map (fun c => (c - avgWords) ^ 2)).sum /
    (wordCounts.length : ℚ)
  max 0 (1 - variance / (avgWords * avgWords))

/-- The method-name term: +0.1 when the method contains `pattern` or
`semantic`. -/
def methodBoost (m : JStr) : ℚ :=
  if jsIncludes m (jstr ("pattern")) || jsIncludes m (jstr ("semantic")) then 0.1
  else 0

/-- The full selection score of `selectBestDetection`. -/
def detectionScore (r : DetectionResult) : ℚ :=
  r.confidence * 0.4 + chapterCountScore r.chapters.length
    + sizeConsistency r.chapters * 0.2 + methodBoost r.method

/-- `selectBestDetection`: the source stably sorts by descending score and
takes the head, i.e. the first result attaining the maximal score; on an
empty list it throws `No chapter detection results available`. -/
def selectBestDetection : List DetectionResult → Option DetectionResult
  | [] => none
  | r :: rest =>
    some (rest.foldl (fun best c =>
      if detectionScore best < detectionScore c then c else best) r)

/-- The inner boundary search of `optimizeChapters`: scan sentence pieces of
the window from the middle one onwards and return the first adjusted end
offset that stays strictly inside `(startIndex + 500, nextStart - 100)`. -/
def optimizeEndFind (boundaryText : JStr) (sentences : List JStr)
    (chEnd chStart nextStart : Int) : List Nat → Option Int
  | [] => none
  | j :: rest =>
    let sj := sentences.getD j []
    let sentenceEnd := jsIndexOf boundaryText sj + (sj.length : Int) + 1
    let actualEnd := chEnd - 200 + sentenceEnd
    if chStart + 500 < actualEnd && actualEnd < nextStart - 100 then some actualEnd
    else optimizeEndFind boundaryText sentences chEnd chStart nextStart rest

/-- The candidate sentence positions `j = ⌊n/2⌋ … n-2` of the window. -/
def optimizeJs (n : Nat) : List Nat :=
  (List.range n).filter (fun j => n / 2 ≤ j && j + 1 < n)

/-- The per-chapter boundary search of `optimizeChapters` for a non-final
chapter. -/
def optimizeEndSearch (fullText : JStr) (ch : Chapter) (nextStart : Int) : Option Int :=
  let boundaryText := jsSubstring fullText (ch.endIndex - 200) (nextStart + 200)
  let sentences := jsSplitSent boundaryText
  optimizeEndFind boundaryText sentences ch.endIndex ch.startIndex nextStart
    (optimizeJs sentences.length)

/-- `optimizeChapters` from detect-chapters: every chapter is re-emitted with
its word count recomputed from its (possibly re-cut) content; only a
non-final chapter whose window search succeeds gets a new end offset and
content. -/
def optimizeChapters : List Chapter → JStr → List Chapter
  | [], _ => []
  | [ch], _ =>
    [{ ch with wordCount := (jsSplitWs ch.content).length }]
  | ch :: next :: rest, fullText =>
    let cut := optimizeEndSearch fullText ch next.startIndex
    let optimizedEnd := (match cut with
      | some ae => ae
      | none => ch.endIndex)
    let optimizedContent := (match cut with
      | some ae => jsTrim (jsSubstring fullText ch.startIndex ae)
      | none => ch.content)
    { ch with
        content := optimizedContent
        endIndex := optimizedEnd
        wordCount := (jsSplitWs optimizedContent).length }
      :: optimizeChapters (next :: rest) fullText

/-- A placeholder chapter used as `getD` default in indexed statements. -/
def dfltChapter : Chapter :=
  { title := [], content := [], wordCount := 0, startIndex := 0, endIndex := 0,
    detectionMethod := [], confidence := 0, boundaryStrength := none }

/-- Fixture: an urgent job (priority 1, created first, no dependency). -/
def cexJobA : PJob :=
  { id := 1, book_id := 1, job_type := jstr ("extract_text"), priority := 1,
    created_at := 0, retry_count := 0, max_retries := 3, depends_on_job := none,
    status := JobStatus.pending }

/-- Fixture: a less urgent job (priority 5, created later, no dependency). -/
def cexJobB : PJob :=
  { id := 2, book_id := 1, job_type := jstr ("detect_chapters"), priority := 5,
    created_at := 1, retry_count := 0, max_retries := 3, depends_on_job := none,
    status := JobStatus.pending }

/-- Fixture: the two-job queue state. -/
def cexDb0 : List PJob := [cexJobA, cexJobB]

/-- Fixture: one worker round that claims the next job and reports failure on
job 1 (the claimed one in the trace below). -/
def cexClaimFail (db : List PJob) : List PJob :=
  complete_job (get_next_job db).2 1 false

/-- Fixture: the queue after job 1 is claimed and failed three times; job 1 is
then `pending` with `retry_count = max_retries = 3`. -/
def cexDb3 : List PJob := cexClaimFail (cexClaimFail (cexClaimFail cexDb0))

/-- A concrete chapter that passes `validateChapters` (149 characters, 50
words), used to instantiate the store-chapters aggregate theorem. -/
def c9chapter : SChapter :=
  { title := jstr ("T"), content := joinWith ' ' (List.replicate 50 (jstr ("ab"))),
    wordCount := 0, startIndex := 0, endIndex := 0,
    detectionMethod := jstr ("pattern_based"), confidence := 1,
    boundaryStrength := none }

/-- A concrete book row for the same instantiation. -/
def c9book : BookRow :=
  { processing_status := jstr ("processing"), total_word_count := 0,
    estimated_total_reading_time := 0, enhancement_status := EnhStatus.pending }

/-- A placeholder tier match used as `getD` default in indexed statements. -/
def dfltMatch : TierMatch :=
  { index := 0, title := [], lineNum := 0, confidence := 0 }

/-- The fold step of `bestTierMatches`, named for reasoning. -/
def bestTierStep (text : JStr) (acc : List TierMatch × ℚ) (t : TierId) :
    List TierMatch × ℚ :=
  let ms := matchesForTier text t
  if 2 ≤ ms.length then
    if acc.2 < tierConfidence t then (ms, tierConfidence t) else acc
  else acc

/-- Fixture: a one-chapter detection result for instantiating the selection
theorem. -/
def c4result : DetectionResult :=
  { chapters := [dfltChapter], method := jstr ("pattern_based"), confidence := 1 }

/-! ## Theorems -/

theorem countStatus_cons (x s : EnhStatus) (rest : List EnhStatus) :
    countStatus x (s :: rest) = (if s = x then 1 else 0) + countStatus x rest := by
  by_cases h : s = x <;> (simp [countStatus, List.filter_cons, h]; try omega)

theorem countStatus_le_length (x : EnhStatus) (l : List EnhStatus) :
    countStatus x l ≤ l.length :=
  List.length_filter_le _ _

theorem countStatus_pair_le (l : List EnhStatus) :
    countStatus EnhStatus.completed l + countStatus EnhStatus.failed l ≤ l.length := by
  induction l with
  | nil => simp [countStatus]
  | cons s rest ih =>
    rw [countStatus_cons, countStatus_cons, List.length_cons]
    by_cases h1 : s = EnhStatus.completed <;> by_cases h2 : s = EnhStatus.failed <;>
      simp [h1, h2] at * <;> omega

theorem countStatus_completed_iff (l : List EnhStatus) :
    countStatus EnhStatus.completed l = l.length ↔
      ∀ s ∈ l, s = EnhStatus.completed := by
  induction l with
  | nil => simp [countStatus]
  | cons s rest ih =>
    have hle := countStatus_le_length EnhStatus.completed rest
    rw [countStatus_cons, List.length_cons]
    by_cases h : s = EnhStatus.completed
    · rw [if_pos h]
      constructor
      · intro hh t ht
        rcases List.mem_cons.mp ht with rfl | ht2
        · exact h
        · exact ih.mp (by omega) t ht2
      · intro hh
        have := ih.mpr (fun t ht => hh t (List.mem_cons_of_mem s ht))
        omega
    · rw [if_neg h]
      constructor
      · intro hh
        omega
      · intro hh
        exact absurd (hh s (List.mem_cons_self s rest)) h

theorem countStatus_terminal_iff (l : List EnhStatus) :
    countStatus EnhStatus.completed l + countStatus EnhStatus.failed l = l.length ↔
      ∀ s ∈ l, s = EnhStatus.completed ∨ s = EnhStatus.failed := by
  induction l with
  | nil => simp [countStatus]
  | cons s rest ih =>
    have hle := countStatus_pair_le rest
    rw [countStatus_cons, countStatus_cons, List.length_cons]
    by_cases h1 : s = EnhStatus.completed
    · have h2 : ¬ s = EnhStatus.failed := by rw [h1]; intro hcon; cases hcon
      rw [if_pos h1, if_neg h2]
      constructor
      · intro hh t ht
        rcases List.mem_cons.mp ht with rfl | ht2
        · exact Or.inl h1
        · exact ih.mp (by omega) t ht2
      · intro hh
        have := ih.mpr (fun t ht => hh t (List.mem_cons_of_mem s ht))
        omega
    · rw [if_neg h1]
      by_cases h2 : s = EnhStatus.failed
      · rw [if_pos h2]
        constructor
        · intro hh t ht
          rcases List.mem_cons.mp ht with rfl | ht2
          · exact Or.inr h2
          · exact ih.mp (by omega) t ht2
        · intro hh
          have := ih.mpr (fun t ht => hh t (List.mem_cons_of_mem s ht))
          omega
      · rw [if_neg h2]
        constructor
        · intro hh
          omega
        · intro hh
          rcases hh s (List.mem_cons_self s rest) with hcon | hcon
          · exact absurd hcon h1
          · exact absurd hcon h2

/-- C3 (counterexample): on chapter statuses `[completed, failed]` the code
writes `failed`, while the claimed rule (failed only when failures strictly
outnumber successes, otherwise processing) demands `processing`. -/
theorem updateBookEnhancementStatus_counterexample :
    updateBookEnhancementStatus [EnhStatus.completed, EnhStatus.failed] =
      EnhStatus.failed ∧
    specBookEnhancementStatus [EnhStatus.completed, EnhStatus.failed] =
      EnhStatus.processing :=
  ⟨by decide, by decide⟩

/-- C3 (amended): the recomputed aggregate enhancement status is `completed`
iff all chapters completed, or all chapters are terminal with strictly more
completed than failed; `failed` iff all chapters are terminal, not all
completed, and the completed count does not exceed the failed count; and
`processing` iff some chapter is still non-terminal. -/
theorem updateBookEnhancementStatus_cases (l : List EnhStatus) :
    (updateBookEnhancementStatus l = EnhStatus.completed ↔
      (∀ s ∈ l, s = EnhStatus.completed) ∨
      ((∀ s ∈ l, s = EnhStatus.completed ∨ s = EnhStatus.failed) ∧
        countStatus EnhStatus.failed l < countStatus EnhStatus.completed l)) ∧
    (updateBookEnhancementStatus l = EnhStatus.failed ↔
      (∀ s ∈ l, s = EnhStatus.completed ∨ s = EnhStatus.failed) ∧
      ¬(∀ s ∈ l, s = EnhStatus.completed) ∧
      countStatus EnhStatus.completed l ≤ countStatus EnhStatus.failed l) ∧
    (updateBookEnhancementStatus l = EnhStatus.processing ↔
      ¬(∀ s ∈ l, s = EnhStatus.completed ∨ s = EnhStatus.failed)) := by
  have hpl := countStatus_pair_le l
  simp only [← countStatus_completed_iff l, ← countStatus_terminal_iff l]
  unfold updateBookEnhancementStatus
  dsimp only
  split_ifs with h1 h2 h3 <;>
    refine ⟨?_, ?_, ?_⟩ <;> simp <;> omega

/-- C3 witness: the amended characterization applied at the concrete status
list `[completed, completed, failed]` (all terminal, majority completed: the
code writes `completed`, not `processing`). -/
theorem updateBookEnhancementStatus_cases_witness :
    updateBookEnhancementStatus
      [EnhStatus.completed, EnhStatus.completed, EnhStatus.failed] =
      EnhStatus.completed :=
  (updateBookEnhancementStatus_cases
      [EnhStatus.completed, EnhStatus.completed, EnhStatus.failed]).1.mpr
    (Or.inr ⟨by decide, by decide⟩)

/-- C5: the periodic cache eviction deletes exactly the entries that are both
older than the age threshold (default 30 days for the no-argument overload)
and have fewer than 2 hits; an old entry with 2 or more hits, or a recent
entry with few hits, is retained. -/
theorem cleanup_old_cache_exact (daysOld now : Int) (table : List CacheEntry)
    (e : CacheEntry) (he : e ∈ table) :
    (e ∈ (cleanup_old_cache_param daysOld now table).1 ↔
      ¬(e.createdAt < now - daysOld * daySeconds ∧ e.hitCount < 2)) ∧
    cleanup_old_cache now table = cleanup_old_cache_param 30 now table := by
  refine ⟨?_, rfl⟩
  simp only [cleanup_old_cache_param, List.mem_filter, he, true_and,
    Bool.not_eq_eq_eq_not, Bool.not_true, Bool.and_eq_false_imp,
    decide_eq_true_eq, decide_eq_false_iff_not, not_and, not_lt]

/-- C5 witness: on day 100, an entry from day 0 with 0 hits is evicted, an
entry from day 0 with 5 hits is kept, and a day-99 entry with 0 hits is
kept. -/
theorem cleanup_old_cache_exact_witness :
    (CacheEntry.mk 1 0 0) ∉
      (cleanup_old_cache_param 30 (100 * daySeconds)
        [CacheEntry.mk 1 0 0, CacheEntry.mk 2 0 5,
         CacheEntry.mk 3 (99 * daySeconds) 0]).1 ∧
    (CacheEntry.mk 2 0 5) ∈
      (cleanup_old_cache_param 30 (100 * daySeconds)
        [CacheEntry.mk 1 0 0, CacheEntry.mk 2 0 5,
         CacheEntry.mk 3 (99 * daySeconds) 0]).1 ∧
    (CacheEntry.mk 3 (99 * daySeconds) 0) ∈
      (cleanup_old_cache_param 30 (100 * daySeconds)
        [CacheEntry.mk 1 0 0, CacheEntry.mk 2 0 5,
         CacheEntry.mk 3 (99 * daySeconds) 0]).1 := by
  refine ⟨fun hmem => ?_, ?_, ?_⟩
  · exact ((cleanup_old_cache_exact 30 (100 * daySeconds) _ _ (by decide)).1.mp hmem)
      ⟨by decide, by decide⟩
  · exact (cleanup_old_cache_exact 30 (100 * daySeconds) _ _ (by decide)).1.mpr
      (fun hcon => by revert hcon; decide)
  · exact (cleanup_old_cache_exact 30 (100 * daySeconds) _ _ (by decide)).1.mpr
      (fun hcon => by revert hcon; decide)

/-- C6 (counterexample): the raw extracted text `42` is non-empty, so the
stage does not raise the no-extractable-text failure, yet the cleanup pass
reduces it to the empty string: text empty after cleanup is not a hard
failure, refuting the claimed equivalence. -/
theorem extractTextWithProgress_counterexample :
    cleanupExtractedText (jstr ("42")) = [] ∧
    extractTextWithProgress (jstr ("42")) = some [] ∧
    jsTrim (jstr ("42")) ≠ [] :=
  ⟨by decide, by decide, by decide⟩

/-- C6 (amended): the stage raises the hard no-extractable-text failure iff
the raw extracted text is empty or whitespace-only — the check runs before
the cleanup pass — and on success it returns the cleaned text (which may be
empty). -/
theorem extractTextWithProgress_none_iff (rawText : JStr) :
    (extractTextWithProgress rawText = none ↔ jsTrim rawText = []) ∧
    (∀ out, extractTextWithProgress rawText = some out →
      out = cleanupExtractedText rawText) := by
  unfold extractTextWithProgress
  have hlen : ((jsTrim rawText).length == 0) = true ↔ jsTrim rawText = [] := by
    simp [List.length_eq_zero]
  have hempty : rawText.isEmpty = true → jsTrim rawText = [] := by
    intro h
    rw [List.isEmpty_iff] at h
    rw [h]
    rfl
  by_cases h : (rawText.isEmpty || (jsTrim rawText).length == 0) = true
  · rw [if_pos h]
    rcases Bool.or_eq_true_iff.mp h with h1 | h1
    · exact ⟨by simp [hempty h1], by intro out hcon; cases hcon⟩
    · exact ⟨by simp [hlen.mp h1], by intro out hcon; cases hcon⟩
  · rw [if_neg h]
    rw [Bool.or_eq_true_iff] at h
    push_neg at h
    refine ⟨?_, ?_⟩
    · simp only [reduceCtorEq, false_iff]
      intro hcon
      exact h.2 (hlen.mpr hcon)
    · intro out hout
      cases hout
      rfl

/-- C6 witness: the amended equivalence applied at the whitespace-only raw
text, which does fail, and at a plain word, which does not. -/
theorem extractTextWithProgress_none_iff_witness :
    extractTextWithProgress (jstr ("  ")) = none ∧
    extractTextWithProgress (jstr ("hello")) ≠ none := by
  constructor
  · exact (extractTextWithProgress_none_iff (jstr ("  "))).1.mpr (by decide)
  · intro hcon
    have := (extractTextWithProgress_none_iff (jstr ("hello"))).1.mp hcon
    revert this
    decide

theorem prepareChaptersForDBGo_reading (bookId i : Nat) (l : List SChapter) :
    ∀ r ∈ prepareChaptersForDBGo bookId i l,
      r.reading_time_minutes = ceilNatDiv r.word_count 200 := by
  induction l generalizing i with
  | nil => intro r hr; cases hr
  | cons ch rest ih =>
    intro r hr
    rcases List.mem_cons.mp hr with rfl | hr2
    · rfl
    · exact ih (i + 1) r hr2

theorem prepareChaptersForDBGo_word_counts (bookId i : Nat) (l : List SChapter) :
    (prepareChaptersForDBGo bookId i l).map ChapterForDB.word_count =
      l.map SChapter.wordCount := by
  induction l generalizing i with
  | nil => rfl
  | cons ch rest ih => simp [prepareChaptersForDBGo, ih (i + 1)]

theorem prepareChaptersForDBGo_reading_times (bookId i : Nat) (l : List SChapter) :
    (prepareChaptersForDBGo bookId i l).map ChapterForDB.reading_time_minutes =
      l.map (fun ch => ceilNatDiv ch.wordCount 200) := by
  induction l generalizing i with
  | nil => rfl
  | cons ch rest ih => simp [prepareChaptersForDBGo, ih (i + 1)]

/-- C9: every stored chapter row carries a reading-time estimate of
`ceil(wordCount / 200)` minutes, and the book row is updated with an
aggregate word count equal to the sum of the stored chapters' word counts
and an aggregate reading time equal to the sum of their reading-time
estimates. -/
theorem store_chapters_aggregates (bookId : Nat) (chapters : List SChapter)
    (book : BookRow) :
    (∀ r ∈ prepareChaptersForDB bookId (validateChapters chapters),
      r.reading_time_minutes = ceilNatDiv r.word_count 200) ∧
    (updateBookCompletionStatus book (calculateBookStats (validateChapters chapters))
        ).total_word_count =
      ((prepareChaptersForDB bookId (validateChapters chapters)).map
        ChapterForDB.word_count).sum ∧
    (updateBookCompletionStatus book (calculateBookStats (validateChapters chapters))
        ).estimated_total_reading_time =
      ((prepareChaptersForDB bookId (validateChapters chapters)).map
        ChapterForDB.reading_time_minutes).sum := by
  refine ⟨prepareChaptersForDBGo_reading bookId 0 _, ?_, ?_⟩
  · rw [prepareChaptersForDB, prepareChaptersForDBGo_word_counts]
    rfl
  · rw [prepareChaptersForDB, prepareChaptersForDBGo_reading_times]
    rfl

/-- C9 witness: the aggregate identity instantiated at a concrete one-chapter
store (book id 7). -/
theorem store_chapters_aggregates_witness :
    (updateBookCompletionStatus c9book
        (calculateBookStats (validateChapters [c9chapter]))
      ).estimated_total_reading_time =
    ((prepareChaptersForDB 7 (validateChapters [c9chapter])).map
      ChapterForDB.reading_time_minutes).sum :=
  (store_chapters_aggregates 7 [c9chapter] c9book).2.2

theorem jobKeyLt_iff (a b : PJob) :
    jobKeyLt a b = true ↔
      a.priority < b.priority ∨
        (a.priority = b.priority ∧ a.created_at < b.created_at) := by
  simp [jobKeyLt]

theorem jobKeyLt_irrefl (a : PJob) : jobKeyLt a a = false := by
  rw [Bool.eq_false_iff]
  intro h
  rw [jobKeyLt_iff] at h
  omega

theorem jobKeyLt_trans {a b c : PJob} (h1 : jobKeyLt a b = true)
    (h2 : jobKeyLt b c = true) : jobKeyLt a c = true := by
  rw [jobKeyLt_iff] at h1 h2 ⊢
  omega

theorem jobKeyLt_asymm {a b : PJob} (h1 : jobKeyLt a b = true) :
    jobKeyLt b a = false := by
  rw [Bool.eq_false_iff]
  intro h2
  rw [jobKeyLt_iff] at h1 h2
  omega

/-- The running-minimum fold underlying `selectNextJob`. -/
def selectFoldStep (acc : Option PJob) (j : PJob) : Option PJob :=
  match acc with
  | none => some j
  | some k => if jobKeyLt j k then some j else some k

theorem selectNextJob_eq_fold (db : List PJob) :
    selectNextJob db = (db.filter (claimable db)).foldl selectFoldStep none := rfl

theorem selectFold_min (l : List PJob) :
    ∀ m j : PJob, l.foldl selectFoldStep (some m) = some j →
      (j = m ∨ j ∈ l) ∧ (j = m ∨ jobKeyLt j m = true) ∧
      ∀ k ∈ l, jobKeyLt k j = false := by
  induction l with
  | nil =>
    intro m j h
    obtain rfl := Option.some.inj h
    exact ⟨Or.inl rfl, Or.inl rfl, fun k hk => absurd hk (List.not_mem_nil k)⟩
  | cons x rest ih =>
    intro m j h
    rw [List.foldl_cons] at h
    by_cases hxm : jobKeyLt x m = true
    · rw [show selectFoldStep (some m) x = some x by
        simp [selectFoldStep, hxm]] at h
      obtain ⟨hmem, hchain, hmin⟩ := ih x j h
      refine ⟨?_, ?_, ?_⟩
      · rcases hmem with hx | hj
        · rw [hx]
          exact Or.inr (List.mem_cons_self x rest)
        · exact Or.inr (List.mem_cons_of_mem x hj)
      · rcases hchain with hx | hlt
        · rw [hx]
          exact Or.inr hxm
        · exact Or.inr (jobKeyLt_trans hlt hxm)
      · intro k hk
        rcases List.mem_cons.mp hk with hkx | hk2
        · rw [hkx]
          rcases hchain with hx | hlt
          · rw [hx]
            exact jobKeyLt_irrefl x
          · exact jobKeyLt_asymm hlt
        · exact hmin k hk2
    · rw [show selectFoldStep (some m) x = some m by
        simp [selectFoldStep, hxm]] at h
      obtain ⟨hmem, hchain, hmin⟩ := ih m j h
      refine ⟨?_, hchain, ?_⟩
      · rcases hmem with hx | hj
        · exact Or.inl hx
        · exact Or.inr (List.mem_cons_of_mem x hj)
      · intro k hk
        rcases List.mem_cons.mp hk with hkx | hk2
        · rw [hkx]
          rcases hchain with hx | hlt
          · rw [← hx] at hxm
            exact Bool.eq_false_iff.mpr hxm
          · rw [Bool.eq_false_iff]
            intro hkj
            exact hxm (jobKeyLt_trans hkj hlt)
        · exact hmin k hk2

theorem selectNextJob_spec (db : List PJob) (j : PJob)
    (h : selectNextJob db = some j) :
    j ∈ db ∧ claimable db j = true ∧
      ∀ k ∈ db, claimable db k = true → jobKeyLt k j = false := by
  rw [selectNextJob_eq_fold] at h
  cases hf : db.filter (claimable db) with
  | nil => rw [hf] at h; cases h
  | cons x tl =>
    rw [hf, List.foldl_cons,
      show selectFoldStep none x = some x from rfl] at h
    obtain ⟨hmem, hchain, hmin⟩ := selectFold_min tl x j h
    have hjf : j ∈ db.filter (claimable db) := by
      rw [hf]
      rcases hmem with rfl | hj
      · exact List.mem_cons_self j tl
      · exact List.mem_cons_of_mem x hj
    obtain ⟨hjdb, hjcl⟩ := List.mem_filter.mp hjf
    refine ⟨hjdb, hjcl, ?_⟩
    intro k hk hkcl
    have hkf : k ∈ db.filter (claimable db) := List.mem_filter.mpr ⟨hk, hkcl⟩
    rw [hf] at hkf
    rcases List.mem_cons.mp hkf with rfl | hk2
    · rcases hchain with rfl | hlt
      · exact jobKeyLt_irrefl j
      · exact jobKeyLt_asymm hlt
    · exact hmin k hk2

/-- C2 (amended): the row returned by `get_next_job` comes from a pending job
whose dependency (if any) is completed AND whose retries are not exhausted
(`retry_count < max_retries`, a condition the claim omits), minimal among all
such claimable jobs by priority, ties broken by oldest creation time; in
particular a pending job with an uncompleted dependency is never returned. -/
theorem get_next_job_selection_minimal (db : List PJob) (j : PJob)
    (h : (get_next_job db).1 = some j) :
    ∃ j0, j0 ∈ db ∧ j = { j0 with status := JobStatus.running } ∧
      j0.status = JobStatus.pending ∧ depSatisfied db j0 = true ∧
      j0.retry_count < j0.max_retries ∧
      ∀ k ∈ db, claimable db k = true → jobKeyLt k j0 = false := by
  unfold get_next_job at h
  cases hs : selectNextJob db with
  | none => rw [hs] at h; cases h
  | some j0 =>
    rw [hs] at h
    obtain rfl := (Option.some.inj h).symm
    obtain ⟨hmem, hcl, hmin⟩ := selectNextJob_spec db j0 hs
    have hcl2 := hcl
    simp only [claimable, Bool.and_eq_true, decide_eq_true_eq] at hcl2
    exact ⟨j0, hmem, rfl, hcl2.1.1, hcl2.1.2, hcl2.2, hmin⟩

/-- C2 (counterexample): after job 1 (priority 1, no dependency) is claimed
and failed three times it sits `pending` with `retry_count = max_retries`, so
`get_next_job` skips it and returns job 2 even though job 1 is a pending job
with satisfied dependency and strictly lower priority value — the claimed
selection rule, which mentions no retry filter, is violated. -/
theorem get_next_job_selection_counterexample :
    ((get_next_job cexDb3).1).map PJob.id = some 2 ∧
    cexDb3.map PJob.status = [JobStatus.pending, JobStatus.pending] ∧
    cexDb3.map PJob.priority = [1, 5] ∧
    cexDb3.map PJob.created_at = [0, 1] ∧
    cexDb3.map PJob.depends_on_job = [none, none] := by
  refine ⟨by decide, by decide, by decide, by decide, by decide⟩

/-- C2 witness: the amended selection property applied to the concrete
two-job queue, where job 1 (priority 1) is claimable and claimed. -/
theorem get_next_job_selection_minimal_witness :
    ∃ j0, j0 ∈ cexDb0 ∧
      { cexJobA with status := JobStatus.running } =
        { j0 with status := JobStatus.running } ∧
      j0.status = JobStatus.pending ∧ depSatisfied cexDb0 j0 = true ∧
      j0.retry_count < j0.max_retries ∧
      ∀ k ∈ cexDb0, claimable cexDb0 k = true → jobKeyLt k j0 = false :=
  get_next_job_selection_minimal cexDb0
    { cexJobA with status := JobStatus.running } (by decide)

theorem scoreFold_max (l : List DetectionResult) :
    ∀ a : DetectionResult,
      (l.foldl (fun best c =>
          if detectionScore best < detectionScore c then c else best) a = a ∨
        l.foldl (fun best c =>
          if detectionScore best < detectionScore c then c else best) a ∈ l) ∧
      detectionScore a ≤ detectionScore
        (l.foldl (fun best c =>
          if detectionScore best < detectionScore c then c else best) a) ∧
      ∀ r ∈ l, detectionScore r ≤ detectionScore
        (l.foldl (fun best c =>
          if detectionScore best < detectionScore c then c else best) a) := by
  induction l with
  | nil =>
    intro a
    exact ⟨Or.inl rfl, le_refl _, fun r hr => absurd hr (List.not_mem_nil r)⟩
  | cons x rest ih =>
    intro a
    rw [List.foldl_cons]
    by_cases hax : detectionScore a < detectionScore x
    · rw [if_pos hax]
      obtain ⟨hmem, hle, hall⟩ := ih x
      refine ⟨?_, le_trans (le_of_lt hax) hle, ?_⟩
      · rcases hmem with he | hm
        · rw [he]
          exact Or.inr (List.mem_cons_self x rest)
        · exact Or.inr (List.mem_cons_of_mem x hm)
      · intro r hr
        rcases List.mem_cons.mp hr with hrx | hr2
        · exact hrx ▸ hle
        · exact hall r hr2
    · rw [if_neg hax]
      obtain ⟨hmem, hle, hall⟩ := ih a
      refine ⟨?_, hle, ?_⟩
      · rcases hmem with he | hm
        · exact Or.inl he
        · exact Or.inr (List.mem_cons_of_mem x hm)
      · intro r hr
        rcases List.mem_cons.mp hr with hrx | hr2
        · exact hrx ▸ le_trans (le_of_not_lt hax) hle
        · exact hall r hr2

/-- C4: for a non-empty list of strategy results (each with at least one
chapter, so that every arithmetic step of the score is meaningful), the
selection returns a member of the list whose score is maximal, where the
score of a result is 0.4 times its confidence, plus 0.3 when its chapter
count lies in [3, 50] and minus 0.2 when it exceeds 50, plus 0.2 times the
size-consistency term max(0, 1 - variance/mean^2) of its chapter word
counts, plus 0.1 when its method name contains pattern or semantic. -/
theorem selectBestDetection_max (rs : List DetectionResult) (best : DetectionResult)
    (_hchap : ∀ r ∈ rs, r.chapters ≠ [])
    (h : selectBestDetection rs = some best) :
    best ∈ rs ∧ (∀ r ∈ rs, detectionScore r ≤ detectionScore best) ∧
    (∀ r ∈ rs, detectionScore r =
      0.4 * r.confidence
      + (if 3 ≤ r.chapters.length ∧ r.chapters.length ≤ 50 then (0.3 : ℚ)
         else if 50 < r.chapters.length then -0.2 else 0)
      + 0.2 * sizeConsistency r.chapters
      + (if jsIncludes r.method (jstr ("pattern")) = true
            ∨ jsIncludes r.method (jstr ("semantic")) = true
         then (0.1 : ℚ) else 0)) := by
  have hform : ∀ r : DetectionResult, detectionScore r =
      0.4 * r.confidence
      + (if 3 ≤ r.chapters.length ∧ r.chapters.length ≤ 50 then (0.3 : ℚ)
         else if 50 < r.chapters.length then -0.2 else 0)
      + 0.2 * sizeConsistency r.chapters
      + (if jsIncludes r.method (jstr ("pattern")) = true
            ∨ jsIncludes r.method (jstr ("semantic")) = true
         then (0.1 : ℚ) else 0) := by
    intro r
    unfold detectionScore chapterCountScore methodBoost
    simp only [Bool.and_eq_true, decide_eq_true_eq, Bool.or_eq_true]
    ring_nf
  cases rs with
  | nil => cases h
  | cons r0 rest =>
    unfold selectBestDetection at h
    obtain rfl := Option.some.inj h
    obtain ⟨hmem, hle0, hall⟩ := scoreFold_max rest r0
    refine ⟨?_, ?_, fun r _ => hform r⟩
    · rcases hmem with he | hm
      · rw [he]
        exact List.mem_cons_self r0 rest
      · exact List.mem_cons_of_mem r0 hm
    · intro r hr
      rcases List.mem_cons.mp hr with hrx | hr2
      · exact hrx ▸ hle0
      · exact hall r hr2

/-- C4 witness: the selection property applied to the concrete singleton
result list. -/
theorem selectBestDetection_max_witness : c4result ∈ [c4result] :=
  (selectBestDetection_max [c4result] c4result
    (by
      intro r hr
      rw [List.mem_singleton] at hr
      rw [hr, c4result]
      simp)
    rfl).1

theorem optimizeEndFind_bounds (bt : JStr) (sentences : List JStr)
    (chEnd chStart nextStart : Int) :
    ∀ js e, optimizeEndFind bt sentences chEnd chStart nextStart js = some e →
      chStart + 500 < e ∧ e < nextStart - 100 := by
  intro js
  induction js with
  | nil => intro e h; cases h
  | cons j rest ih =>
    intro e h
    rw [optimizeEndFind] at h
    split at h
    · obtain rfl := Option.some.inj h
      rename_i hc
      simpa [Bool.and_eq_true, decide_eq_true_eq] using hc
    · exact ih e h

theorem optimizeEndSearch_bounds (fullText : JStr) (ch : Chapter) (nextStart e : Int)
    (h : optimizeEndSearch fullText ch nextStart = some e) :
    ch.startIndex + 500 < e ∧ e < nextStart - 100 := by
  rw [optimizeEndSearch] at h
  exact optimizeEndFind_bounds _ _ _ _ _ _ e h

theorem optimizeChapters_length (l : List Chapter) (t : JStr) :
    (optimizeChapters l t).length = l.length := by
  induction l with
  | nil => rfl
  | cons ch rest ih =>
    cases rest with
    | nil => rfl
    | cons next rest2 =>
      rw [optimizeChapters, List.length_cons, ih]
      rfl

/-- C10: boundary optimization preserves the chapter count and, per chapter,
the title, detection method, confidence, boundary strength and start offset;
only the end offset, content and word count may change, and a non-final
chapter's end offset moves only to a position strictly greater than its
start offset plus 500 and strictly less than the next chapter's start offset
minus 100 (the final chapter's end offset never moves). -/
theorem optimizeChapters_frame (chapters : List Chapter) (fullText : JStr) :
    (optimizeChapters chapters fullText).length = chapters.length ∧
    ∀ i, i < chapters.length →
      ((optimizeChapters chapters fullText).getD i dfltChapter).title =
        (chapters.getD i dfltChapter).title ∧
      ((optimizeChapters chapters fullText).getD i dfltChapter).detectionMethod =
        (chapters.getD i dfltChapter).detectionMethod ∧
      ((optimizeChapters chapters fullText).getD i dfltChapter).confidence =
        (chapters.getD i dfltChapter).confidence ∧
      ((optimizeChapters chapters fullText).getD i dfltChapter).boundaryStrength =
        (chapters.getD i dfltChapter).boundaryStrength ∧
      ((optimizeChapters chapters fullText).getD i dfltChapter).startIndex =
        (chapters.getD i dfltChapter).startIndex ∧
      (((optimizeChapters chapters fullText).getD i dfltChapter).endIndex =
          (chapters.getD i dfltChapter).endIndex ∨
        (i + 1 < chapters.length ∧
          (chapters.getD i dfltChapter).startIndex + 500 <
            ((optimizeChapters chapters fullText).getD i dfltChapter).endIndex ∧
          ((optimizeChapters chapters fullText).getD i dfltChapter).endIndex <
            (chapters.getD (i + 1) dfltChapter).startIndex - 100)) := by
  refine ⟨optimizeChapters_length chapters fullText, ?_⟩
  induction chapters with
  | nil => intro i hi; cases hi
  | cons ch rest ih =>
    cases rest with
    | nil =>
      intro i hi
      cases i with
      | zero => exact ⟨rfl, rfl, rfl, rfl, rfl, Or.inl rfl⟩
      | succ j =>
        exfalso
        simp only [List.length_cons, List.length_nil] at hi
        omega
    | cons next rest2 =>
      intro i hi
      rw [optimizeChapters]
      cases i with
      | zero =>
        simp only [List.getD_cons_zero]
        cases hcut : optimizeEndSearch fullText ch next.startIndex with
        | none =>
          exact ⟨trivial, trivial, trivial, trivial, trivial, Or.inl rfl⟩
        | some ae =>
          obtain ⟨hb1, hb2⟩ := optimizeEndSearch_bounds fullText ch next.startIndex
            ae hcut
          refine ⟨trivial, trivial, trivial, trivial, trivial,
            Or.inr ⟨by simp, ?_, ?_⟩⟩
          · exact hb1
          · simpa using hb2
      | succ j =>
        simp only [List.getD_cons_succ]
        obtain ⟨h1, h2, h3, h4, h5, h6⟩ := ih j (by simpa using hi)
        refine ⟨h1, h2, h3, h4, h5, ?_⟩
        rcases h6 with he | ⟨hl, ha, hb⟩
        · exact Or.inl he
        · refine Or.inr ⟨?_, ha, ?_⟩
          · simp only [List.length_cons] at hl ⊢
            omega
          · rw [List.getD_cons_succ] at hb
            exact hb

/-- C10 witness: the frame property applied at a concrete one-chapter list. -/
theorem optimizeChapters_frame_witness :
    (optimizeChapters [dfltChapter] (jstr ("x"))).length = 1 :=
  (optimizeChapters_frame [dfltChapter] (jstr ("x"))).1

theorem markRunning_map_id (db : List PJob) (i : Nat) :
    (markRunning db i).map PJob.id = db.map PJob.id := by
  unfold markRunning
  rw [List.map_map]
  apply List.map_congr_left
  intro k _
  by_cases h : k.id = i <;> simp [h]

theorem markRunning_row_id (i : Nat) (k : PJob) :
    ((if k.id = i then { k with status := JobStatus.running } else k) : PJob).id
      = k.id := by
  by_cases h : k.id = i <;> simp [h]

theorem find?_markRunning (db : List PJob) (i d : Nat) :
    (markRunning db i).find? (fun k => k.id = d) =
      (db.find? (fun k => k.id = d)).map
        (fun k => if k.id = i then { k with status := JobStatus.running } else k) := by
  unfold markRunning
  induction db with
  | nil => rfl
  | cons x rest ih =>
    rw [List.map_cons]
    by_cases hx : x.id = d
    · rw [List.find?_cons_of_pos _
          (by simp only [markRunning_row_id i x, decide_eq_true_eq]; exact hx),
        List.find?_cons_of_pos _ (by simp only [decide_eq_true_eq]; exact hx)]
      rfl
    · rw [List.find?_cons_of_neg _
          (by simp only [markRunning_row_id i x, decide_eq_true_eq]; exact hx),
        List.find?_cons_of_neg _ (by simp only [decide_eq_true_eq]; exact hx)]
      exact ih

theorem nodup_id_unique {db : List PJob} (hids : (db.map PJob.id).Nodup)
    {a b : PJob} (ha : a ∈ db) (hb : b ∈ db) (hab : a.id = b.id) : a = b :=
  (List.inj_on_of_nodup_map hids) ha hb hab

theorem depSatisfied_markRunning (db : List PJob) (j0 : PJob)
    (hids : (db.map PJob.id).Nodup) (hj0 : j0 ∈ db)
    (hpend : j0.status = JobStatus.pending) (k : PJob) :
    depSatisfied (markRunning db j0.id) k = depSatisfied db k := by
  unfold depSatisfied
  cases hdep : k.depends_on_job with
  | none => rfl
  | some d =>
    dsimp only
    rw [find?_markRunning]
    cases hfind : db.find? (fun k => k.id = d) with
    | none => rfl
    | some dep =>
      have hdepmem : dep ∈ db := List.mem_of_find?_eq_some hfind
      have hdepid : dep.id = d := by
        have := List.find?_some hfind
        simpa using this
      by_cases hdi : dep.id = j0.id
      · have heq : dep = j0 := nodup_id_unique hids hdepmem hj0 hdi
        subst heq
        simp [hdi, hpend]
      · simp [hdi]

theorem claimable_markRunning (db : List PJob) (j0 : PJob)
    (hids : (db.map PJob.id).Nodup) (hj0 : j0 ∈ db)
    (hpend : j0.status = JobStatus.pending) :
    ∀ k ∈ db,
      claimable (markRunning db j0.id)
        (if k.id = j0.id then { k with status := JobStatus.running } else k) =
      (claimable db k && !(k.id = j0.id)) := by
  intro k _
  by_cases hki : k.id = j0.id
  · rw [if_pos hki]
    simp [claimable, hki]
  · rw [if_neg hki]
    simp [claimable, depSatisfied_markRunning db j0 hids hj0 hpend, hki]

theorem filter_map_eq_of_mem {α : Type} (f : α → α) (p q : α → Bool) :
    ∀ l : List α, (∀ k ∈ l, p (f k) = q k) → (∀ k ∈ l, q k = true → f k = k) →
      (l.map f).filter p = l.filter q
  | [], _, _ => rfl
  | x :: rest, h, hfix => by
    rw [List.map_cons, List.filter_cons, List.filter_cons]
    rw [h x (List.mem_cons_self x rest)]
    by_cases hq : q x = true
    · rw [hq]
      simp only [if_pos rfl]
      rw [hfix x (List.mem_cons_self x rest) hq,
        filter_map_eq_of_mem f p q rest
          (fun k hk => h k (List.mem_cons_of_mem x hk))
          (fun k hk => hfix k (List.mem_cons_of_mem x hk))]
    · rw [Bool.eq_false_iff.mpr hq]
      simp only [Bool.false_eq_true, if_neg]
      exact filter_map_eq_of_mem f p q rest
        (fun k hk => h k (List.mem_cons_of_mem x hk))
        (fun k hk => hfix k (List.mem_cons_of_mem x hk))

theorem filter_claimable_markRunning (db : List PJob) (j0 : PJob)
    (hids : (db.map PJob.id).Nodup) (hj0 : j0 ∈ db)
    (hpend : j0.status = JobStatus.pending) :
    (markRunning db j0.id).filter (claimable (markRunning db j0.id)) =
      db.filter (fun k => claimable db k && !(k.id = j0.id)) := by
  unfold markRunning
  exact filter_map_eq_of_mem _ _ _ db
    (claimable_markRunning db j0 hids hj0 hpend)
    (fun k _ hq => by
      rw [Bool.and_eq_true] at hq
      rw [if_neg (by simpa using hq.2)])

theorem map_id_filter_ne (l : List PJob) (i : Nat) :
    (l.filter (fun k => !(k.id = i))).map PJob.id =
      (l.map PJob.id).filter (fun x => !(x = i)) := by
  induction l with
  | nil => rfl
  | cons x rest ih =>
    by_cases h : x.id = i <;> simp [h, ih]

theorem claimableIds_markRunning (db : List PJob) (j0 : PJob)
    (hids : (db.map PJob.id).Nodup) (hj0 : j0 ∈ db)
    (hpend : j0.status = JobStatus.pending) :
    claimableIds (markRunning db j0.id) =
      (claimableIds db).filter (fun x => !(x = j0.id)) := by
  unfold claimableIds
  rw [filter_claimable_markRunning db j0 hids hj0 hpend]
  rw [show (db.filter (fun k => claimable db k && !(k.id = j0.id))) =
      ((db.filter (claimable db)).filter (fun k => !(k.id = j0.id))) by
    rw [List.filter_filter]
    apply List.filter_congr
    intro k _
    rw [Bool.and_comm]]
  exact map_id_filter_ne _ _

theorem claimableIds_nodup (db : List PJob) (hids : (db.map PJob.id).Nodup) :
    (claimableIds db).Nodup := by
  unfold claimableIds
  exact List.Nodup.sublist (List.Sublist.map PJob.id (List.filter_sublist db)) hids

theorem foldl_selectFoldStep_ne_none (l : List PJob) :
    ∀ m : PJob, l.foldl selectFoldStep (some m) ≠ none := by
  induction l with
  | nil => intro m h; cases h
  | cons x rest ih =>
    intro m
    rw [List.foldl_cons]
    by_cases h : jobKeyLt x m = true
    · rw [show selectFoldStep (some m) x = some x by simp [selectFoldStep, h]]
      exact ih x
    · rw [show selectFoldStep (some m) x = some m by simp [selectFoldStep, h]]
      exact ih m

theorem selectNextJob_none_iff (db : List PJob) :
    selectNextJob db = none → claimableIds db = [] := by
  intro h
  rw [selectNextJob_eq_fold] at h
  unfold claimableIds
  cases hf : db.filter (claimable db) with
  | nil => rfl
  | cons x tl =>
    rw [hf, List.foldl_cons, show selectFoldStep none x = some x from rfl] at h
    exact absurd h (foldl_selectFoldStep_ne_none tl x)

theorem get_next_job_some (db db2 : List PJob) (j : PJob)
    (h : get_next_job db = (some j, db2)) :
    ∃ j0, selectNextJob db = some j0 ∧ j = { j0 with status := JobStatus.running } ∧
      db2 = markRunning db j0.id := by
  unfold get_next_job at h
  cases hs : selectNextJob db with
  | none =>
    rw [hs] at h
    simp at h
  | some j0 =>
    rw [hs] at h
    have h1 := congrArg Prod.fst h
    have h2 := congrArg Prod.snd h
    simp only [Option.some.injEq] at h1
    exact ⟨j0, rfl, h1.symm, h2.symm⟩

theorem get_next_job_none (db db2 : List PJob)
    (h : get_next_job db = (none, db2)) :
    selectNextJob db = none ∧ db2 = db := by
  unfold get_next_job at h
  cases hs : selectNextJob db with
  | none =>
    rw [hs] at h
    exact ⟨rfl, (congrArg Prod.snd h).symm⟩
  | some j0 =>
    rw [hs] at h
    have h1 := congrArg Prod.fst h
    simp at h1

theorem claimable_pending {db : List PJob} {j : PJob}
    (h : claimable db j = true) : j.status = JobStatus.pending := by
  simp only [claimable, Bool.and_eq_true, decide_eq_true_eq] at h
  exact h.1.1

/-- C1: in the serialized trace model (each `get_next_job` call is one atomic
conditional update, so any interleaving of concurrent claimers serializes
into a trace of claim steps), over any number of claim steps on a table with
distinct job ids: no job id is ever handed out twice, every handed-out job
was a claimable pending row of the initial table and is returned (and stored)
as `running`, and once the number of steps reaches the number of claimable
jobs, the handed-out ids are exactly the claimable ids, each exactly once. -/
theorem get_next_job_claims_exactly_once (db : List PJob) (n : Nat)
    (hids : (db.map PJob.id).Nodup) :
    (claimedIds db n).Nodup ∧
    (∀ x ∈ claimedIds db n, x ∈ claimableIds db) ∧
    (∀ jr ∈ (runClaims db n).2.filterMap id,
      jr.status = JobStatus.running ∧
      ∃ r ∈ db, r.id = jr.id ∧ r.status = JobStatus.pending) ∧
    ((claimableIds db).length ≤ n →
      List.Perm (claimedIds db n) (claimableIds db)) := by
  induction n generalizing db with
  | zero =>
    refine ⟨by simp [claimedIds, runClaims], by simp [claimedIds, runClaims],
      by simp [runClaims], ?_⟩
    intro hlen
    have : claimableIds db = [] := List.length_eq_zero.mp (Nat.le_zero.mp hlen)
    simp [claimedIds, runClaims, this]
  | succ n ih =>
    rcases hgj : get_next_job db with ⟨r, db2⟩
    cases r with
    | none =>
      obtain ⟨hs, hdb⟩ := get_next_job_none db db2 hgj
      rw [hdb] at hgj
      have hempty := selectNextJob_none_iff db hs
      have hstep : runClaims db (n + 1) =
          ((runClaims db n).1, none :: (runClaims db n).2) := by
        simp [runClaims, hgj]
      have hclaimed : claimedIds db (n + 1) = claimedIds db n := by
        simp [claimedIds, hstep]
      obtain ⟨ih1, ih2, ih3, ih4⟩ := ih db hids
      refine ⟨hclaimed ▸ ih1, hclaimed ▸ ih2, ?_, ?_⟩
      · intro jr hjr
        rw [hstep] at hjr
        simp only [List.filterMap_cons] at hjr
        exact ih3 jr hjr
      · intro _
        rw [hclaimed]
        exact ih4 (by rw [hempty]; exact Nat.zero_le n)
    | some j =>
      obtain ⟨j0, hs, rfl, rfl⟩ := get_next_job_some db db2 j hgj
      obtain ⟨hj0mem, hcl, _⟩ := selectNextJob_spec db j0 hs
      have hpend : j0.status = JobStatus.pending := claimable_pending hcl
      have hids2 : ((markRunning db j0.id).map PJob.id).Nodup := by
        rw [markRunning_map_id]
        exact hids
      have hstep : runClaims db (n + 1) =
          ((runClaims (markRunning db j0.id) n).1,
            some { j0 with status := JobStatus.running } ::
              (runClaims (markRunning db j0.id) n).2) := by
        simp [runClaims, hgj]
      have hclaimed : claimedIds db (n + 1) =
          j0.id :: claimedIds (markRunning db j0.id) n := by
        simp [claimedIds, hstep]
      have hsub := claimableIds_markRunning db j0 hids hj0mem hpend
      have hj0in : j0.id ∈ claimableIds db := by
        unfold claimableIds
        exact List.mem_map_of_mem PJob.id (List.mem_filter.mpr ⟨hj0mem, hcl⟩)
      obtain ⟨ih1, ih2, ih3, ih4⟩ := ih (markRunning db j0.id) hids2
      have htail_ne : ∀ x ∈ claimedIds (markRunning db j0.id) n, x ≠ j0.id := by
        intro x hx
        have := ih2 x hx
        rw [hsub] at this
        have := List.of_mem_filter this
        simpa using this
      refine ⟨?_, ?_, ?_, ?_⟩
      · rw [hclaimed]
        exact List.Nodup.cons (fun hmem => htail_ne j0.id hmem rfl) ih1
      · rw [hclaimed]
        intro x hx
        rcases List.mem_cons.mp hx with rfl | hx2
        · exact hj0in
        · have := ih2 x hx2
          rw [hsub] at this
          exact List.mem_of_mem_filter this
      · intro jr hjr
        rw [hstep] at hjr
        simp only [List.filterMap_cons] at hjr
        rcases List.mem_cons.mp hjr with rfl | hjr2
        · exact ⟨rfl, j0, hj0mem, rfl, hpend⟩
        · obtain ⟨hrun, r, hr, hrid, hrpend⟩ := ih3 jr hjr2
          refine ⟨hrun, ?_⟩
          obtain ⟨k, hk, hfk⟩ := List.mem_map.mp hr
          by_cases hki : k.id = j0.id
          · rw [if_pos hki] at hfk
            rw [← hfk] at hrpend
            cases hrpend
          · rw [if_neg hki] at hfk
            exact ⟨k, hk, hfk ▸ hrid, hfk ▸ hrpend⟩
      · intro hlen
        have hnodup := claimableIds_nodup db hids
        have hperm0 : List.Perm (claimableIds db)
            (j0.id :: (claimableIds db).erase j0.id) :=
          List.perm_cons_erase hj0in
        have hfe : (claimableIds db).filter (fun x => !(x = j0.id)) =
            (claimableIds db).erase j0.id := by
          rw [List.Nodup.erase_eq_filter hnodup]
          apply List.filter_congr
          intro x _
          by_cases h : x = j0.id <;> simp [h]
        have hlen2 : (claimableIds (markRunning db j0.id)).length ≤ n := by
          rw [hsub, hfe]
          have := hperm0.length_eq
          rw [List.length_cons] at this
          omega
        have hperm1 := ih4 hlen2
        rw [hclaimed]
        have hperm2 : List.Perm (j0.id :: claimedIds (markRunning db j0.id) n)
            (j0.id :: claimableIds (markRunning db j0.id)) :=
          List.Perm.cons j0.id hperm1
        have hperm3 : List.Perm (j0.id :: claimableIds (markRunning db j0.id))
            (claimableIds db) := by
          rw [hsub, hfe]
          exact hperm0.symm
        exact hperm2.trans hperm3

/-- C1 witness: two claim steps on the concrete two-job queue hand out
exactly the two claimable job ids, each once. -/
theorem get_next_job_claims_exactly_once_witness :
    List.Perm (claimedIds cexDb0 2) (claimableIds cexDb0) :=
  (get_next_job_claims_exactly_once cexDb0 2 (by decide)).2.2.2 (by decide)

theorem runParallelDetection_ne_nil (text : JStr) (book : Book) :
    runParallelDetection text book ≠ [] := by
  intro hcon
  simp only [runParallelDetection] at hcon
  split at hcon
  · cases hcon
  · rename_i hne
    rw [hcon] at hne
    simp at hne

theorem createOptimizedChunks_first (text bookTitle : JStr)
    (h : 100 < (jsTrim (joinWith ' ' ((jsSplitWs text).take 2000))).length) :
    createOptimizedChunks text bookTitle ≠ [] := by
  unfold createOptimizedChunks
  cases hwords : jsSplitWs text with
  | nil =>
    rw [hwords] at h
    simp [joinWith, jsTrim] at h
  | cons w ws =>
    rw [hwords] at h
    show chunksGo (w :: ws) bookTitle ((w :: ws).length + 1) 0 ≠ []
    rw [chunksGo]
    rw [if_pos (by simp)]
    rw [if_pos (by simpa using h)]
    simp

/-- C8 (amended): the detection result list is never empty — on a total
strategy wipe-out the fallback result object is still appended, so the
selection step's `No chapter detection results available` branch is
unreachable — and every returned result carries at least one chapter
PROVIDED the text's first 2000-word chunk exceeds 100 characters after
trimming; for shorter texts the fallback chunker itself returns zero
chapters. -/
theorem runParallelDetection_fallback (text : JStr) (book : Book) :
    runParallelDetection text book ≠ [] ∧
    (100 < (jsTrim (joinWith ' ' ((jsSplitWs text).take 2000))).length →
      ∀ r ∈ runParallelDetection text book, r.chapters ≠ []) := by
  refine ⟨runParallelDetection_ne_nil text book, ?_⟩
  intro h r hr
  simp only [runParallelDetection] at hr
  split at hr
  · rw [List.mem_singleton] at hr
    rw [hr]
    exact createOptimizedChunks_first text book.title h
  · have := (List.mem_filter.mp hr).2
    simp only [decide_eq_true_eq] at this
    exact List.ne_nil_of_length_pos this

/-- C8 (counterexample): on the two-character text `hi` every strategy and
the fallback chunker produce zero chapters, so detection yields a single
fallback result with an empty chapter list — at least one chapter is NOT
guaranteed — although the result list itself is non-empty, keeping the error
branch unreachable. -/
theorem runParallelDetection_counterexample :
    (runParallelDetection (jstr ("hi")) (Book.mk (jstr ("T")) none)).map
      (fun r => r.chapters.length) = [0] ∧
    (runParallelDetection (jstr ("hi")) (Book.mk (jstr ("T")) none)).map
      (fun r => r.method) = [jstr ("fallback_chunking")] ∧
    (createOptimizedChunks (jstr ("hi")) (jstr ("T"))).length = 0 :=
  ⟨by decide, by decide, by decide⟩

/-- C8 witness: the amended guarantee applied at a concrete 149-character
marker-free text. -/
theorem runParallelDetection_fallback_witness :
    runParallelDetection (joinWith ' ' (List.replicate 50 (jstr ("ab"))))
      (Book.mk (jstr ("T")) none) ≠ [] :=
  (runParallelDetection_fallback (joinWith ' ' (List.replicate 50 (jstr ("ab"))))
    (Book.mk (jstr ("T")) none)).1

theorem bestTierMatches_eq_fold (text : JStr) :
    bestTierMatches text = chapterPatternTiers.foldl (bestTierStep text) ([], 0) := rfl

theorem bestTierFold (text : JStr) :
    ∀ (L : List TierId) (acc : List TierMatch × ℚ),
      List.Pairwise (fun a b => tierConfidence b < tierConfidence a) L →
      (L.foldl (bestTierStep text) acc = acc ∧
        ∀ t ∈ L, ¬(2 ≤ (matchesForTier text t).length ∧ acc.2 < tierConfidence t)) ∨
      (∃ t ∈ L, 2 ≤ (matchesForTier text t).length ∧ acc.2 < tierConfidence t ∧
        L.foldl (bestTierStep text) acc = (matchesForTier text t, tierConfidence t) ∧
        ∀ u ∈ L, 2 ≤ (matchesForTier text u).length →
          tierConfidence u ≤ tierConfidence t) := by
  intro L
  induction L with
  | nil =>
    intro acc _
    exact Or.inl ⟨rfl, fun t ht => absurd ht (List.not_mem_nil t)⟩
  | cons t rest ih =>
    intro acc hpw
    obtain ⟨hhead, htail⟩ := List.pairwise_cons.mp hpw
    rw [List.foldl_cons]
    by_cases h2 : 2 ≤ (matchesForTier text t).length
    · by_cases hc : acc.2 < tierConfidence t
      · rw [show bestTierStep text acc t = (matchesForTier text t, tierConfidence t) by
          simp [bestTierStep, h2, hc]]
        rcases ih (matchesForTier text t, tierConfidence t) htail with
          ⟨heq, _⟩ | ⟨t2, ht2, _, hconf2, _, _⟩
        · refine Or.inr ⟨t, List.mem_cons_self t rest, h2, hc, heq, ?_⟩
          intro u hu _
          rcases List.mem_cons.mp hu with rfl | hu2
          · exact le_refl _
          · exact le_of_lt (hhead u hu2)
        · exact absurd hconf2 (not_lt_of_le (le_of_lt (hhead t2 ht2)))
      · rw [show bestTierStep text acc t = acc by simp [bestTierStep, h2, hc]]
        rcases ih acc htail with ⟨heq, hnone⟩ | ⟨t2, ht2, hlen2, hacc2, heq2, hmax2⟩
        · refine Or.inl ⟨heq, ?_⟩
          intro u hu
          rcases List.mem_cons.mp hu with rfl | hu2
          · exact fun hco => hc hco.2
          · exact hnone u hu2
        · refine Or.inr ⟨t2, List.mem_cons_of_mem t ht2, hlen2, hacc2, heq2, ?_⟩
          intro u hu hul
          rcases List.mem_cons.mp hu with rfl | hu2
          · exfalso
            have h1 : tierConfidence t2 < tierConfidence u := hhead t2 ht2
            have h3 : acc.2 < tierConfidence t2 := hacc2
            exact hc (lt_trans h3 h1)
          · exact hmax2 u hu2 hul
    · rw [show bestTierStep text acc t = acc by simp [bestTierStep, h2]]
      rcases ih acc htail with ⟨heq, hnone⟩ | ⟨t2, ht2, hlen2, hacc2, heq2, hmax2⟩
      · refine Or.inl ⟨heq, ?_⟩
        intro u hu
        rcases List.mem_cons.mp hu with rfl | hu2
        · exact fun hco => h2 hco.1
        · exact hnone u hu2
      · refine Or.inr ⟨t2, List.mem_cons_of_mem t ht2, hlen2, hacc2, heq2, ?_⟩
        intro u hu hul
        rcases List.mem_cons.mp hu with rfl | hu2
        · exact absurd hul h2
        · exact hmax2 u hu2 hul

theorem insertByKey_perm {α : Type} (key : α → Int) (x : α) :
    ∀ l : List α, List.Perm (insertByKey key x l) (x :: l) := by
  intro l
  induction l with
  | nil => exact List.Perm.refl _
  | cons y ys ih =>
    rw [insertByKey]
    by_cases h : key y ≤ key x
    · rw [if_pos h]
      exact (List.Perm.cons y ih).trans (List.Perm.swap x y ys)
    · rw [if_neg h]

theorem mem_insertByKey {α : Type} (key : α → Int) (x z : α) (l : List α) :
    z ∈ insertByKey key x l ↔ z = x ∨ z ∈ l := by
  rw [(insertByKey_perm key x l).mem_iff]
  exact List.mem_cons

theorem insertByKey_pairwise {α : Type} (key : α → Int) (x : α) :
    ∀ l : List α, List.Pairwise (fun a b => key a ≤ key b) l →
      List.Pairwise (fun a b => key a ≤ key b) (insertByKey key x l) := by
  intro l
  induction l with
  | nil => intro _; exact List.pairwise_singleton _ _
  | cons y ys ih =>
    intro hpw
    obtain ⟨hhead, htail⟩ := List.pairwise_cons.mp hpw
    rw [insertByKey]
    by_cases h : key y ≤ key x
    · rw [if_pos h]
      refine List.pairwise_cons.mpr ⟨?_, ih htail⟩
      intro z hz
      rcases (mem_insertByKey key x z ys).mp hz with rfl | hz2
      · exact h
      · exact hhead z hz2
    · rw [if_neg h]
      refine List.pairwise_cons.mpr ⟨?_, hpw⟩
      intro z hz
      rcases List.mem_cons.mp hz with rfl | hz2
      · exact le_of_lt (lt_of_not_le h)
      · exact le_trans (le_of_lt (lt_of_not_le h)) (hhead z hz2)

theorem stableSortByKey_perm_aux {α : Type} (key : α → Int) :
    ∀ (l : List α) (acc : List α),
      List.Perm (l.foldl (fun acc x => insertByKey key x acc) acc) (acc ++ l) := by
  intro l
  induction l with
  | nil => intro acc; simp
  | cons x rest ih =>
    intro acc
    rw [List.foldl_cons]
    refine (ih (insertByKey key x acc)).trans ?_
    have h1 : List.Perm (insertByKey key x acc ++ rest) ((x :: acc) ++ rest) :=
      List.Perm.append_right rest (insertByKey_perm key x acc)
    refine h1.trans ?_
    simp only [List.cons_append]
    exact List.perm_middle.symm

theorem stableSortByKey_perm {α : Type} (key : α → Int) (l : List α) :
    List.Perm (stableSortByKey key l) l := by
  unfold stableSortByKey
  have := stableSortByKey_perm_aux key l []
  simpa using this

theorem stableSortByKey_pairwise {α : Type} (key : α → Int) (l : List α) :
    List.Pairwise (fun a b => key a ≤ key b) (stableSortByKey key l) := by
  unfold stableSortByKey
  have haux : ∀ (m : List α) (acc : List α),
      List.Pairwise (fun a b => key a ≤ key b) acc →
      List.Pairwise (fun a b => key a ≤ key b)
        (m.foldl (fun acc x => insertByKey key x acc) acc) := by
    intro m
    induction m with
    | nil => intro acc h; exact h
    | cons x rest ih =>
      intro acc h
      rw [List.foldl_cons]
      exact ih _ (insertByKey_pairwise key x acc h)
  exact haux l [] List.Pairwise.nil

theorem buildPatternChapters_spans (text : JStr) (lines : List JStr) :
    ∀ ms : List TierMatch, ∀ ch ∈ buildPatternChapters text lines ms,
      ∃ i, i < ms.length ∧
        ch.startIndex = (ms.getD i dfltMatch).index ∧
        ch.title = (ms.getD i dfltMatch).title ∧
        ch.confidence = (ms.getD i dfltMatch).confidence ∧
        (if i + 1 < ms.length
         then ch.endIndex = (ms.getD (i + 1) dfltMatch).index
         else ch.endIndex = (text.length : Int)) ∧
        ch.content = jsTrim (jsSubstring text ch.startIndex ch.endIndex) ∧
        500 < ch.content.length ∧
        ch.detectionMethod = jstr ("pattern_based") := by
  intro ms
  induction ms with
  | nil => intro ch hch; cases hch
  | cons m rest ih =>
    intro ch hch
    rw [buildPatternChapters] at hch
    by_cases hkeep : 500 <
        (jsTrim (jsSubstring text m.index
          (match rest.head? with
           | some nm => nm.index
           | none => (text.length : Int)))).length
    · rw [if_pos hkeep] at hch
      rcases List.mem_cons.mp hch with rfl | htail
      · refine ⟨0, by simp, rfl, rfl, rfl, ?_, rfl, hkeep, rfl⟩
        cases hr : rest with
        | nil =>
          rw [if_neg (by simp [hr])]
          simp [hr]
        | cons r rs =>
          rw [if_pos (by simp [hr])]
          simp [hr]
      · obtain ⟨i, hi, h1, h2, h3, h4, h5, h6, h7⟩ := ih ch htail
        refine ⟨i + 1, by simpa using hi, by simpa using h1, by simpa using h2,
          by simpa using h3, ?_, h5, h6, h7⟩
        by_cases hlt : i + 1 < rest.length
        · rw [if_pos hlt] at h4
          rw [if_pos (by simpa using hlt)]
          simpa using h4
        · rw [if_neg hlt] at h4
          rw [if_neg (by simpa using hlt)]
          exact h4
    · rw [if_neg hkeep] at hch
      obtain ⟨i, hi, h1, h2, h3, h4, h5, h6, h7⟩ := ih ch hch
      refine ⟨i + 1, by simpa using hi, by simpa using h1, by simpa using h2,
        by simpa using h3, ?_, h5, h6, h7⟩
      by_cases hlt : i + 1 < rest.length
      · rw [if_pos hlt] at h4
        rw [if_pos (by simpa using hlt)]
        simpa using h4
      · rw [if_neg hlt] at h4
        rw [if_neg (by simpa using hlt)]
        exact h4

theorem buildPatternChapters_start_mem (text : JStr) (lines : List JStr)
    (ms : List TierMatch) (ch : Chapter) (hch : ch ∈ buildPatternChapters text lines ms) :
    ∃ m ∈ ms, ch.startIndex = m.index := by
  obtain ⟨i, hi, h1, _⟩ := buildPatternChapters_spans text lines ms ch hch
  refine ⟨ms.getD i dfltMatch, ?_, h1⟩
  rw [List.getD_eq_getElem ms dfltMatch hi]
  exact List.getElem_mem hi

theorem buildPatternChapters_pairwise (text : JStr) (lines : List JStr) :
    ∀ ms : List TierMatch,
      List.Pairwise (fun a b : TierMatch => a.index ≤ b.index) ms →
      List.Pairwise (fun a b : Chapter => a.startIndex ≤ b.startIndex)
        (buildPatternChapters text lines ms) := by
  intro ms
  induction ms with
  | nil => intro _; exact List.Pairwise.nil
  | cons m rest ih =>
    intro hpw
    obtain ⟨hhead, htail⟩ := List.pairwise_cons.mp hpw
    rw [buildPatternChapters]
    by_cases hkeep : 500 <
        (jsTrim (jsSubstring text m.index
          (match rest.head? with
           | some nm => nm.index
           | none => (text.length : Int)))).length
    · rw [if_pos hkeep]
      refine List.pairwise_cons.mpr ⟨?_, ih htail⟩
      intro ch hch
      obtain ⟨m2, hm2, hstart⟩ := buildPatternChapters_start_mem text lines rest ch hch
      rw [hstart]
      exact hhead m2 hm2
    · rw [if_neg hkeep]
      exact ih htail

theorem matchesForTier_confidence (text : JStr) (t : TierId) :
    ∀ m ∈ matchesForTier text t, m.confidence = tierConfidence t := by
  intro m hm
  simp only [matchesForTier] at hm
  obtain ⟨iv, _, hf⟩ := List.mem_filterMap.mp hm
  split at hf
  · cases hf
  · split at hf
    · split at hf
      · cases hf
      · obtain rfl := Option.some.inj hf
        rfl
    · cases hf

theorem detectPatternBasedChapters_chapters (text : JStr) :
    (detectPatternBasedChapters text).chapters =
      buildPatternChapters text (splitEvery '\n' text)
        (stableSortByKey (fun m => m.index) (bestTierMatches text).1) := rfl

/-- C7: for every input text, either no pattern tier matches at least 2
lines and the pattern strategy emits no chapters, or there is a single tier,
matching at least 2 lines and of maximal confidence among such tiers, such
that the emitted chapters are exactly those built from that one tier's
matches (tiers are never mixed), stably sorted by text offset: chapters
appear in offset order, each spans from its marker to the next marker or the
end of the text, chapters of at most 500 trimmed characters are discarded,
and every chapter carries the `pattern_based` method and that tier's
confidence. -/
theorem detectPatternBasedChapters_single_tier (text : JStr) :
    ((∀ t ∈ chapterPatternTiers, (matchesForTier text t).length < 2) ∧
      (detectPatternBasedChapters text).chapters = []) ∨
    (∃ t ∈ chapterPatternTiers,
      2 ≤ (matchesForTier text t).length ∧
      (∀ u ∈ chapterPatternTiers, 2 ≤ (matchesForTier text u).length →
        tierConfidence u ≤ tierConfidence t) ∧
      (detectPatternBasedChapters text).chapters =
        buildPatternChapters text (splitEvery '\n' text)
          (stableSortByKey (fun m => m.index) (matchesForTier text t)) ∧
      List.Pairwise (fun a b : Chapter => a.startIndex ≤ b.startIndex)
        (detectPatternBasedChapters text).chapters ∧
      ∀ ch ∈ (detectPatternBasedChapters text).chapters,
        ch.detectionMethod = jstr ("pattern_based") ∧
        ch.confidence = tierConfidence t ∧
        500 < ch.content.length ∧
        ch.content = jsTrim (jsSubstring text ch.startIndex ch.endIndex) ∧
        ∃ i, i < (stableSortByKey (fun m => m.index) (matchesForTier text t)).length ∧
          ch.startIndex =
            ((stableSortByKey (fun m => m.index) (matchesForTier text t)).getD i
              dfltMatch).index ∧
          (if i + 1 <
              (stableSortByKey (fun m => m.index) (matchesForTier text t)).length
           then ch.endIndex =
             ((stableSortByKey (fun m => m.index) (matchesForTier text t)).getD
               (i + 1) dfltMatch).index
           else ch.endIndex = (text.length : Int))) := by
  have hdesc : List.Pairwise (fun a b => tierConfidence b < tierConfidence a)
      chapterPatternTiers := by
    simp only [chapterPatternTiers, List.pairwise_cons, List.mem_cons,
      List.mem_singleton, List.not_mem_nil, List.forall_mem_cons,
      List.forall_mem_nil]
    norm_num [tierConfidence]
  have hpos : ∀ t ∈ chapterPatternTiers, (0 : ℚ) < tierConfidence t := by
    simp only [chapterPatternTiers, List.forall_mem_cons, List.forall_mem_nil]
    norm_num [tierConfidence]
  rcases bestTierFold text chapterPatternTiers ([], 0) hdesc with
    ⟨heq, hnone⟩ | ⟨t, ht, hlen, _, hfold, hmax⟩
  · left
    constructor
    · intro u hu
      by_contra hcon
      push_neg at hcon
      exact hnone u hu ⟨hcon, hpos u hu⟩
    · rw [detectPatternBasedChapters_chapters, bestTierMatches_eq_fold, heq]
      rfl
  · right
    refine ⟨t, ht, hlen, hmax, ?_, ?_, ?_⟩
    · rw [detectPatternBasedChapters_chapters, bestTierMatches_eq_fold, hfold]
    · rw [detectPatternBasedChapters_chapters, bestTierMatches_eq_fold, hfold]
      exact buildPatternChapters_pairwise _ _ _
        (stableSortByKey_pairwise (fun m => m.index) (matchesForTier text t))
    · intro ch hch
      rw [detectPatternBasedChapters_chapters, bestTierMatches_eq_fold, hfold] at hch
      obtain ⟨i, hi, h1, _, h3, h4, h5, h6, h7⟩ :=
        buildPatternChapters_spans text (splitEvery '\n' text) _ ch hch
      have hconf : ch.confidence = tierConfidence t := by
        rw [h3]
        have hmemS : (stableSortByKey (fun m => m.index)
            (matchesForTier text t)).getD i dfltMatch ∈
            stableSortByKey (fun m => m.index) (matchesForTier text t) := by
          rw [List.getD_eq_getElem _ dfltMatch hi]
          exact List.getElem_mem hi
        have hmemM := (stableSortByKey_perm (fun m => m.index)
          (matchesForTier text t)).mem_iff.mp hmemS
        exact matchesForTier_confidence text t _ hmemM
      exact ⟨h7, hconf, h6, h5, i, hi, h1, h4⟩
